import Mathlib

/-!
# Verification of the unsorted-data sink (external merge-sort buffer)

Shallow embedding of the Rust sources:
* `src/data.rs`    — record model (`Timestamp`, `DataA`..`DataE`, `Record`, `Ord`),
* `src/buffer.rs`  — in-memory run, on-disk run and its resumable reader, the
  merge-sort `Buffer` with `push_record` / `dump_safe`,
* `src/output.rs`  — output `Writer` / `Reader` over the bincode byte format,
* `src/lib.rs`     — `find_earliest_timestamp` (watermark computation).

Modelling conventions:
* `u128` timestamps and the other machine integers carry no arithmetic in the
  sources (they are only compared and copied), so they are embedded as `Nat`;
  serialization theorems carry explicit `< 2^w` bounds where width matters.
* Files are embedded at record granularity: an on-disk run is the list of
  records it holds plus a cursor counted in records.  This is sound because
  the bincode format is self-delimiting and every read/seek in `buffer.rs`
  lands exactly on a record boundary (`bytes_read` bookkeeping); the byte-level
  format itself is modelled and verified separately for the output file.
* Fallible I/O (`std::io::Result`) is embedded as `Option`: `none` is an I/O
  or deserialization failure.  Rust `std` collaborators are embedded by their
  documented contracts: draining a `BinaryHeap<Reverse<Record>>` yields the
  records sorted by nondecreasing timestamp (tie order is unspecified in Rust,
  the model uses a concrete sorted permutation), `Iterator::min_by_key`
  returns the first minimal element.
-/

namespace Tsk

/-- `src/data.rs`: `pub struct Timestamp(pub u128)` — only built, copied and
compared, so embedded as `Nat`. -/
abbrev Timestamp := Nat

/-- `src/data.rs`: `DataA { timestamp, foo: String }`; the `String` payload is
kept as its UTF-8 byte sequence. -/
structure DataA where
  timestamp : Timestamp
  foo : List Nat
deriving DecidableEq, Repr

/-- `src/data.rs`: `DataB { timestamp, bar: bool }`. -/
structure DataB where
  timestamp : Timestamp
  bar : Bool
deriving DecidableEq, Repr

/-- `src/data.rs`: `DataC { timestamp, baz: (u32, u32) }`. -/
structure DataC where
  timestamp : Timestamp
  baz : Nat × Nat
deriving DecidableEq, Repr

/-- `src/data.rs`: `DataD { timestamp, abc: () }`. -/
structure DataD where
  timestamp : Timestamp
  abc : Unit
deriving DecidableEq, Repr

/-- `src/data.rs`: `DataE { timestamp, def: Vec<u16> }` (`def` is a Lean
keyword, the field is called `defs`). -/
structure DataE where
  timestamp : Timestamp
  defs : List Nat
deriving DecidableEq, Repr

/-- `src/data.rs`: `enum Record { A(DataA), B(DataB), C(DataC), D(DataD), E(DataE) }`. -/
inductive Record where
  | A (d : DataA)
  | B (d : DataB)
  | C (d : DataC)
  | D (d : DataD)
  | E (d : DataE)
deriving DecidableEq, Repr

/-- `src/data.rs`: `Record::timestamp`. -/
def Record.timestamp : Record → Timestamp
  | .A x => x.timestamp
  | .B x => x.timestamp
  | .C x => x.timestamp
  | .D x => x.timestamp
  | .E x => x.timestamp

/-- `src/data.rs`: `impl Ord for Record` — compares only the timestamps. -/
def Record.cmp (a b : Record) : Ordering :=
  compare a.timestamp b.timestamp

/-- The order `impl Ord for Record` imposes, as a relation (used for runs). -/
def recLE (a b : Record) : Prop :=
  a.timestamp ≤ b.timestamp

instance : DecidableRel recLE := fun a b =>
  inferInstanceAs (Decidable (a.timestamp ≤ b.timestamp))

instance : IsTotal Record recLE :=
  ⟨fun a b => Nat.le_total a.timestamp b.timestamp⟩

instance : IsTrans Record recLE :=
  ⟨fun _ _ _ hab hbc => Nat.le_trans hab hbc⟩

/-! ## In-memory run (`mod in_memory` of `src/buffer.rs`) -/

/-- `in_memory::Buffer`: a `BinaryHeap<Reverse<Record>>` with its capacity.
The heap contents are kept as the multiset (list) of records; ordering is
imposed at drain time, as in the source. -/
structure InMemBuffer where
  heap : List Record
  capacity : Nat
deriving DecidableEq, Repr

/-- `in_memory::Buffer::with_capacity`. -/
def InMemBuffer.with_capacity (capacity : Nat) : InMemBuffer :=
  { heap := [], capacity }

/-- `in_memory::Buffer::len`. -/
def InMemBuffer.len (b : InMemBuffer) : Nat :=
  b.heap.length

/-- `in_memory::Buffer::is_full`: `heap.len() == heap.capacity()`. -/
def InMemBuffer.is_full (b : InMemBuffer) : Bool :=
  b.heap.length == b.capacity

/-- `in_memory::Buffer::push` (the `debug_assert` is a no-op in release). -/
def InMemBuffer.push (b : InMemBuffer) (record : Record) : InMemBuffer :=
  { b with heap := record :: b.heap }

/-! ## On-disk run (`mod on_disk` of `src/buffer.rs`) -/

/-- `on_disk::FileStorage`: one spill file plus `remaining`.  `contents` is
the full sequence of records written into the file (in write order),
`pos` the parked read cursor, counted in records; `id` the `dump-<id>`
counter value the file was named with. -/
structure FileStorage where
  id : Nat
  contents : List Record
  pos : Nat
  remaining : Nat
deriving DecidableEq, Repr

/-- `FileStorage::new`: drain the heap into a freshly created file in
nondecreasing-timestamp order (`BinaryHeap<Reverse<_>>` pop order), seek back
to the start, remember the record count.  `none` iff the heap is empty. -/
def FileStorage.new (id : Nat) (heap : List Record) : Option FileStorage :=
  if heap.length = 0 then none
  else some { id, contents := List.insertionSort recLE heap, pos := 0, remaining := heap.length }

/-- `in_memory::Buffer::drain_into_file` — returns the optional storage and
the emptied in-memory buffer (`&mut self` in Rust). -/
def InMemBuffer.drain_into_file (b : InMemBuffer) (id : Nat) :
    Option FileStorage × InMemBuffer :=
  (FileStorage.new id b.heap, { b with heap := [] })

/-- `FileStorage::is_empty`. -/
def FileStorage.is_empty (fs : FileStorage) : Bool :=
  fs.remaining == 0

/-- `on_disk::LastRead`: the record cached as head and the number of bytes its
serialized form occupies — at record granularity always `1`. -/
structure LastRead where
  record : Record
  bytes_read : Nat
deriving DecidableEq, Repr

/-- `on_disk::FileStorageReader`: the open reader of one run.  Flattened:
`id`/`contents`/`remaining` are the taken `FileStorage`, `bytes_read` the
wrapped buffered reader's consumed-prefix counter (in records). -/
structure FileStorageReader where
  id : Nat
  contents : List Record
  remaining : Nat
  bytes_read : Nat
  last : Option LastRead
deriving DecidableEq, Repr

/-- `FileStorageReader::read_next`: decrement `remaining` if a record was
cached, then deserialize the next record (if any remain), caching it as the
new head.  `none` models an I/O/deserialization failure (reading past the
end of the file). -/
def FileStorageReader.read_next (r : FileStorageReader) : Option FileStorageReader :=
  let remaining := if r.last.isSome then r.remaining - 1 else r.remaining
  if remaining ≠ 0 then
    match r.contents[r.bytes_read]? with
    | none => none
    | some record =>
        some { r with remaining, bytes_read := r.bytes_read + 1,
                      last := some { record, bytes_read := 1 } }
  else
    some { r with remaining, last := none }

/-- `FileStorage::read` / `FileStorageReader::new`: take the file (parked at
`pos`), wrap it in a buffered reader of the configured `capacity` (the
capacity does not affect the sequence of records read), and pre-read the
head. -/
def FileStorage.read (fs : FileStorage) (capacity : Nat) : Option FileStorageReader :=
  let _ := capacity
  FileStorageReader.read_next
    { id := fs.id, contents := fs.contents, remaining := fs.remaining,
      bytes_read := fs.pos, last := none }

/-- `FileStorageReader::last`, the spec's `head()`: the cached head record. -/
def FileStorageReader.head (r : FileStorageReader) : Option Record :=
  r.last.map (fun lr => lr.record)

/-- `FileStorageReader::close`: seek back to the start of the cached head
(`bytes_read - last.bytes_read`), or stay at end-of-data if no head, and
give the file back to a closed `FileStorage`. -/
def FileStorageReader.close (r : FileStorageReader) : FileStorage :=
  { id := r.id, contents := r.contents,
    pos := match r.last with
           | some lr => r.bytes_read - lr.bytes_read
           | none => r.bytes_read,
    remaining := r.remaining }

/-! ## The merge-sort buffer (`src/buffer.rs`) -/

/-- `buffer::Config`. -/
structure Config where
  max_in_memory : Nat
  file_read_buf_capacity : Nat
deriving DecidableEq, Repr

/-- `buffer::Buffer`: the in-memory run, the closed on-disk runs, the spill
counter, the cached minimum resident timestamp, and the output writer
(embedded as the list of records written so far, in write order). -/
structure Buffer where
  in_memory : InMemBuffer
  files : List FileStorage
  files_counter : Nat
  file_read_buf_capacity : Nat
  earliest_buffered_timestamp : Option Timestamp
  output : List Record
deriving DecidableEq, Repr

/-- `Buffer::new`. -/
def Buffer.new (cfg : Config) : Buffer :=
  { in_memory := InMemBuffer.with_capacity cfg.max_in_memory,
    files := [], files_counter := 0,
    file_read_buf_capacity := cfg.file_read_buf_capacity,
    earliest_buffered_timestamp := none, output := [] }

/-- `Buffer::dump_in_memory`: spill the in-memory run (if nonempty) into a
freshly named file `dump-<files_counter>` and append it to the run list. -/
def Buffer.dump_in_memory (b : Buffer) : Buffer :=
  if b.in_memory.len = 0 then b
  else
    let id := b.files_counter
    match b.in_memory.drain_into_file id with
    | (some file, mem) =>
        { b with in_memory := mem, files_counter := id + 1, files := b.files ++ [file] }
    | (none, _) => b

/-- The cached-minimum update of `push_record`:
`earliest.map_or(ts, |prev| if ts < prev { ts } else { prev })`. -/
def minTs (e : Option Timestamp) (ts : Timestamp) : Timestamp :=
  match e with
  | none => ts
  | some prev => if ts < prev then ts else prev

/-- `Buffer::push_record`: update the cached minimum, insert, spill if the
in-memory run is now full. -/
def Buffer.push_record (b : Buffer) (record : Record) : Buffer :=
  let ts := record.timestamp
  let eb : Option Timestamp :=
    some (match b.earliest_buffered_timestamp with
          | none => ts
          | some prev => if ts < prev then ts else prev)
  let b' := { b with earliest_buffered_timestamp := eb,
                     in_memory := b.in_memory.push record }
  if b'.in_memory.is_full then b'.dump_in_memory else b'

/-- `headTs`: the timestamp of a reader's cached head, if any. -/
def headTs (r : FileStorageReader) : Option Nat :=
  r.last.map (fun lr => lr.record.timestamp)

/-- Indices (from `k` up) of the readers that still have a head, paired with
the head timestamp — the candidates of the `filter_map` in `dump_safe`. -/
def candidatesFrom (k : Nat) : List FileStorageReader → List (Nat × Nat)
  | [] => []
  | r :: rs =>
      match headTs r with
      | some t => (k, t) :: candidatesFrom (k + 1) rs
      | none => candidatesFrom (k + 1) rs

/-- `Iterator::min_by_key` over (index, key) pairs: the first pair with the
minimal key. -/
def minByFirst : List (Nat × Nat) → Option (Nat × Nat)
  | [] => none
  | x :: xs => some (xs.foldl (fun best y => if y.2 < best.2 then y else best) x)

/-- The reader the merge loop selects: first index whose head timestamp is
minimal among all cached heads. -/
def pickMinIdx (rs : List FileStorageReader) : Option Nat :=
  (minByFirst (candidatesFrom 0 rs)).map (fun p => p.1)

/-- The `loop` of `Buffer::dump_safe`, with explicit fuel (the source loop
terminates because every dumped record shrinks the total `remaining`).
Returns the readers, the accumulated output writes, the dumped count and the
value assigned to `earliest_buffered_timestamp` on exit. -/
def mergeLoop (w : Nat) :
    Nat → List FileStorageReader → List Record → Nat →
    Option (List FileStorageReader × List Record × Nat × Option Nat)
  | 0, _, _, _ => none
  | fuel + 1, rs, acc, dumped =>
    match pickMinIdx rs with
    | none => some (rs, acc, dumped, none)
    | some i =>
      match rs[i]? with
      | none => none
      | some r =>
        match r.last with
        | none => none
        | some lr =>
          if w < lr.record.timestamp then
            some (rs, acc, dumped, some lr.record.timestamp)
          else
            match r.read_next with
            | none => none
            | some r' =>
                mergeLoop w fuel (rs.set i r') (acc ++ [lr.record]) (dumped + 1)

/-- Open every on-disk run as a reader (`collect::<Result<Vec<_>, _>>`). -/
def openAll (capacity : Nat) : List FileStorage → Option (List FileStorageReader)
  | [] => some []
  | f :: fs =>
      match f.read capacity, openAll capacity fs with
      | some r, some rs => some (r :: rs)
      | _, _ => none

/-- Close every reader, dropping the runs that are now empty. -/
def closeAll (rs : List FileStorageReader) : List FileStorage :=
  rs.filterMap (fun r =>
    let f := r.close
    if f.is_empty then none else some f)

/-- Total `remaining` over the open readers — the fuel of the merge loop. -/
def sumRemaining (rs : List FileStorageReader) : Nat :=
  (rs.map (fun r => r.remaining)).sum

/-- The spill-file ids of a list of open readers. -/
def idsOf (rs : List FileStorageReader) : List Nat :=
  rs.map (fun r => r.id)

/-- `Buffer::dump_safe`: short-circuit on the cached minimum, force-spill the
in-memory run, k-way merge every on-disk run up to the watermark into the
output, flush (a no-op at this granularity), close the readers and keep the
nonempty runs.  Returns the dumped count (`DumpedCount`). -/
def Buffer.dump_safe (b : Buffer) (safe_to_dump_timestamp : Timestamp) :
    Option (Nat × Buffer) :=
  let has_something_to_dump :=
    match b.earliest_buffered_timestamp with
    | some ts => decide (ts ≤ safe_to_dump_timestamp)
    | none => false
  if has_something_to_dump then
    let b1 := b.dump_in_memory
    match openAll b1.file_read_buf_capacity b1.files with
    | none => none
    | some readers =>
      match mergeLoop safe_to_dump_timestamp (sumRemaining readers + 1) readers [] 0 with
      | none => none
      | some (readers', acc, dumped, eb) =>
          some (dumped,
            { b1 with files := closeAll readers',
                      earliest_buffered_timestamp := eb,
                      output := b1.output ++ acc })
  else
    some (0, b)

/-! ## Watermark computation (`src/lib.rs`) -/

/-- The `try_fold` inside `find_earliest_timestamp`.  Outer `Option` is the
`ControlFlow` (`none` = `Break(None)`), inner `Option Nat` the accumulator. -/
def findEarliestGo (acc : Option Nat) : List (Option Nat) → Option (Option Nat)
  | [] => some acc
  | none :: _ => none
  | some x :: rest =>
      findEarliestGo
        (some (match acc with
               | none => x
               | some y => min x y)) rest

/-- `find_earliest_timestamp`: `none` as soon as any entry is `none`,
otherwise the minimum of the entries (and `none` on the empty vector). -/
def find_earliest_timestamp (items : List (Option Nat)) : Option Nat :=
  match findEarliestGo none items with
  | some (some value) => some value
  | _ => none

/-! ## Output writer/reader byte format (`src/output.rs`)

`bincode::serialize_into` with default options: fixed-width little-endian
integers, `u32` enum-variant tags, `u64` sequence lengths.  Bytes are `Nat`s
(< 256 for valid data). -/

/-- `w`-byte little-endian encoding of `n`. -/
def encodeNatLE : Nat → Nat → List Nat
  | 0, _ => []
  | width + 1, n => n % 256 :: encodeNatLE width (n / 256)

/-- Decode a `w`-byte little-endian integer, returning the rest of the
input. -/
def decodeNatLE : Nat → List Nat → Option (Nat × List Nat)
  | 0, bs => some (0, bs)
  | _ + 1, [] => none
  | width + 1, b :: bs =>
      (decodeNatLE width bs).map (fun p => (b + 256 * p.1, p.2))

/-- Split off `n` raw bytes. -/
def readBytes : Nat → List Nat → Option (List Nat × List Nat)
  | 0, bs => some ([], bs)
  | _ + 1, [] => none
  | n + 1, b :: bs =>
      (readBytes n bs).map (fun p => (b :: p.1, p.2))

/-- Decode `n` consecutive `u16` little-endian values. -/
def decodeU16s : Nat → List Nat → Option (List Nat × List Nat)
  | 0, bs => some ([], bs)
  | n + 1, bs =>
      match decodeNatLE 2 bs with
      | none => none
      | some (x, bs') =>
          (decodeU16s n bs').map (fun p => (x :: p.1, p.2))

/-- bincode serialization of one `Record` (what `Writer::write` appends). -/
def encodeRecord : Record → List Nat
  | .A d => encodeNatLE 4 0 ++ encodeNatLE 16 d.timestamp
            ++ encodeNatLE 8 d.foo.length ++ d.foo
  | .B d => encodeNatLE 4 1 ++ encodeNatLE 16 d.timestamp
            ++ [if d.bar then 1 else 0]
  | .C d => encodeNatLE 4 2 ++ encodeNatLE 16 d.timestamp
            ++ encodeNatLE 4 d.baz.1 ++ encodeNatLE 4 d.baz.2
  | .D d => encodeNatLE 4 3 ++ encodeNatLE 16 d.timestamp
  | .E d => encodeNatLE 4 4 ++ encodeNatLE 16 d.timestamp
            ++ encodeNatLE 8 d.defs.length ++ d.defs.flatMap (encodeNatLE 2)

/-- bincode deserialization of one `Record` (what `Reader::read` performs);
`none` is an I/O- or format-error. -/
def decodeRecord (bs : List Nat) : Option (Record × List Nat) :=
  match decodeNatLE 4 bs with
  | none => none
  | some (tag, bs) =>
    match decodeNatLE 16 bs with
    | none => none
    | some (ts, bs) =>
      if tag = 0 then
        match decodeNatLE 8 bs with
        | none => none
        | some (len, bs) =>
          (readBytes len bs).map (fun p => (Record.A ⟨ts, p.1⟩, p.2))
      else if tag = 1 then
        match bs with
        | [] => none
        | b :: bs =>
          if b = 0 then some (Record.B ⟨ts, false⟩, bs)
          else if b = 1 then some (Record.B ⟨ts, true⟩, bs)
          else none
      else if tag = 2 then
        match decodeNatLE 4 bs with
        | none => none
        | some (x, bs) =>
          (decodeNatLE 4 bs).map (fun p => (Record.C ⟨ts, (x, p.1)⟩, p.2))
      else if tag = 3 then
        some (Record.D ⟨ts, ()⟩, bs)
      else if tag = 4 then
        match decodeNatLE 8 bs with
        | none => none
        | some (len, bs) =>
          (decodeU16s len bs).map (fun p => (Record.E ⟨ts, p.1⟩, p.2))
      else none

/-- The widths the bincode format can represent: every field fits its wire
width (always true of the Rust values, whose types impose the bounds). -/
def Record.Valid : Record → Prop
  | .A d => d.timestamp < 2 ^ 128 ∧ d.foo.length < 2 ^ 64 ∧ ∀ b ∈ d.foo, b < 256
  | .B d => d.timestamp < 2 ^ 128
  | .C d => d.timestamp < 2 ^ 128 ∧ d.baz.1 < 2 ^ 32 ∧ d.baz.2 < 2 ^ 32
  | .D d => d.timestamp < 2 ^ 128
  | .E d => d.timestamp < 2 ^ 128 ∧ d.defs.length < 2 ^ 64 ∧ ∀ x ∈ d.defs, x < 2 ^ 16

/-- `output::Writer`: the output file's bytes (buffered writes are flushed
between records by `dump_safe`, so the file is the concatenation so far). -/
structure Writer where
  file : List Nat
deriving DecidableEq, Repr

/-- `Writer::open` with create+truncate. -/
def Writer.openW : Writer := ⟨[]⟩

/-- `Writer::write`. -/
def Writer.write (wr : Writer) (record : Record) : Writer :=
  ⟨wr.file ++ encodeRecord record⟩

/-- `Writer::flush` — the model keeps the file identical to the written
bytes. -/
def Writer.flush (wr : Writer) : Writer := wr

/-- `output::Reader`: the not-yet-consumed bytes of the output file. -/
structure Reader where
  rest : List Nat
deriving DecidableEq, Repr

/-- `Reader::open`. -/
def Reader.openR (file : List Nat) : Reader := ⟨file⟩

/-- `Reader::read`: deserialize one record from the current position. -/
def Reader.read (rd : Reader) : Option (Record × Reader) :=
  (decodeRecord rd.rest).map (fun p => (p.1, ⟨p.2⟩))

/-- Read `n` records in sequence. -/
def readAll : Nat → Reader → Option (List Record)
  | 0, _ => some []
  | n + 1, rd =>
      match rd.read with
      | none => none
      | some (r, rd') => (readAll n rd').map (fun l => r :: l)

/-- Write a sequence of records. -/
def writeAll (rs : List Record) : Writer :=
  rs.foldl Writer.write Writer.openW

/-! ## Derived notions used by the statements -/

/-- The records of an on-disk run not yet consumed (from the parked cursor). -/
def storagePending (fs : FileStorage) : List Record :=
  fs.contents.drop fs.pos

/-- The records of an open reader not yet consumed (the cached head first). -/
def readerPending (r : FileStorageReader) : List Record :=
  match r.last with
  | some _ => r.contents.drop (r.bytes_read - 1)
  | none => []

/-- Unconsumed records across a list of runs. -/
def filesPending : List FileStorage → List Record
  | [] => []
  | f :: fs => storagePending f ++ filesPending fs

/-- Unconsumed records across a list of open readers. -/
def pendingAll : List FileStorageReader → List Record
  | [] => []
  | r :: rs => readerPending r ++ pendingAll rs

/-- All records resident in the buffer: the in-memory run plus the
unconsumed part of every on-disk run. -/
def Buffer.residents (b : Buffer) : List Record :=
  b.in_memory.heap ++ filesPending b.files

/-- Well-formed closed on-disk run: sorted contents, cursor within bounds,
`remaining` counts exactly the records after the cursor. -/
def SWF (fs : FileStorage) : Prop :=
  List.Sorted recLE fs.contents ∧ fs.pos ≤ fs.contents.length ∧
    fs.remaining + fs.pos = fs.contents.length

/-- Well-formed open reader: sorted contents and consistent cursor/cache —
while a head is cached it is the record just before the read position and it
still counts into `remaining`. -/
def RWF (r : FileStorageReader) : Prop :=
  List.Sorted recLE r.contents ∧
  match r.last with
  | some lr =>
      lr.bytes_read = 1 ∧ 1 ≤ r.bytes_read ∧ r.bytes_read ≤ r.contents.length ∧
      r.contents[r.bytes_read - 1]? = some lr.record ∧
      r.remaining + (r.bytes_read - 1) = r.contents.length
  | none => r.bytes_read = r.contents.length ∧ r.remaining = 0

/-- The contract of `earliest_buffered_timestamp` relative to a resident
multiset: unset exactly on emptiness, otherwise a resident minimum. -/
def EarliestChar (e : Option Nat) (l : List Record) : Prop :=
  match e with
  | none => l = []
  | some m => (∃ x ∈ l, x.timestamp = m) ∧ ∀ x ∈ l, m ≤ x.timestamp

/-- Buffer invariant apart from the in-memory capacity bound (the bound is
re-established only after a possible spill inside `push_record`). -/
structure PreWF (b : Buffer) : Prop where
  cap_pos : 0 < b.in_memory.capacity
  files_wf : ∀ f ∈ b.files, SWF f
  files_ne : ∀ f ∈ b.files, f.remaining ≠ 0
  ids_lt : ∀ f ∈ b.files, f.id < b.files_counter
  earliest : EarliestChar b.earliest_buffered_timestamp b.residents

/-- Full buffer invariant between operations. -/
structure BWF (b : Buffer) : Prop where
  toPreWF : PreWF b
  mem_lt : b.in_memory.heap.length < b.in_memory.capacity

/-- The buffer states reachable from `Buffer::new` (with the documented
positive `max_in_memory`) by `push_record` and successful `dump_safe`
calls. -/
inductive Reachable : Buffer → Prop
  | new (cfg : Config) (hcap : 0 < cfg.max_in_memory) : Reachable (Buffer.new cfg)
  | push {b : Buffer} (r : Record) : Reachable b → Reachable (b.push_record r)
  | dump {b : Buffer} (w n : Nat) {b' : Buffer} :
      Reachable b → b.dump_safe w = some (n, b') → Reachable b'

/-- One sink-facing operation on the buffer. -/
inductive Op where
  | push (r : Record)
  | dump (w : Nat)
deriving DecidableEq, Repr

/-- Apply one operation (a failing `dump_safe` fails the run). -/
def Buffer.applyOp (b : Buffer) : Op → Option Buffer
  | .push r => some (b.push_record r)
  | .dump w => (b.dump_safe w).map (fun p => p.2)

/-- Run a sequence of operations. -/
def runOps : Buffer → List Op → Option Buffer
  | b, [] => some b
  | b, op :: ops =>
      match b.applyOp op with
      | none => none
      | some b' => runOps b' ops

/-- The records pushed by a sequence of operations, in order. -/
def pushedRecords : List Op → List Record
  | [] => []
  | .push r :: ops => r :: pushedRecords ops
  | .dump _ :: ops => pushedRecords ops

/-- One `open → peek → close` cycle on a closed on-disk run (no `advance`). -/
def cycleOnce (c : Nat) (fs : FileStorage) : Option FileStorage :=
  (fs.read c).map FileStorageReader.close

/-- `k` consecutive open/close cycles. -/
def cycles (c : Nat) : Nat → FileStorage → Option FileStorage
  | 0, fs => some fs
  | k + 1, fs =>
      match cycleOnce c fs with
      | none => none
      | some fs' => cycles c k fs'

/-- The heads an open reader reports: the current head, then the head after
each of `n` successive `advance` (`read_next`) calls. -/
def headsTrace : Nat → FileStorageReader → Option (List (Option Record))
  | 0, r => some [r.head]
  | n + 1, r =>
      match r.read_next with
      | none => none
      | some r' => (headsTrace n r').map (fun l => r.head :: l)

/-! ## Concrete values used by the witnesses -/

/-- A tiny configuration: two in-memory slots. -/
def cfgEx : Config := ⟨2, 8192⟩

def rEx5 : Record := .D ⟨5, ()⟩

def rEx7 : Record := .D ⟨7, ()⟩

/-- One record (timestamp 5) pushed into a fresh buffer. -/
def bEx : Buffer := (Buffer.new cfgEx).push_record rEx5

/-- The state `dump_safe 10` leaves `bEx` in. -/
def bEx' : Buffer :=
  { in_memory := { heap := [], capacity := 2 }, files := [], files_counter := 1,
    file_read_buf_capacity := 8192, earliest_buffered_timestamp := none,
    output := [rEx5] }

/-- One record (timestamp 7) pushed into a fresh buffer. -/
def b7Ex : Buffer := (Buffer.new cfgEx).push_record rEx7

/-! ## List helper lemmas -/

theorem getElem?_decomp {α : Type _} :
    ∀ (l : List α) (i : Nat) (x : α), l[i]? = some x →
      ∃ l₁ l₂, l = l₁ ++ x :: l₂ ∧ l₁.length = i ∧ ∀ y, l.set i y = l₁ ++ y :: l₂
  | [], i, x, h => by simp at h
  | a :: t, 0, x, h => by
      simp at h
      exact ⟨[], t, by simp [h], rfl, fun y => by simp⟩
  | a :: t, i + 1, x, h => by
      simp at h
      obtain ⟨l₁, l₂, hdec, hlen, hset⟩ := getElem?_decomp t i x h
      exact ⟨a :: l₁, l₂, by simp [hdec], by simp [hlen], fun y => by simp [hset y]⟩

theorem drop_eq_cons {α : Type _} :
    ∀ (l : List α) (i : Nat) (a : α), l[i]? = some a → l.drop i = a :: l.drop (i + 1)
  | [], i, a, h => by simp at h
  | x :: t, 0, a, h => by simp_all
  | x :: t, i + 1, a, h => by
      simp at h
      simpa using drop_eq_cons t i a h

theorem pendingAll_append (l₁ l₂ : List FileStorageReader) :
    pendingAll (l₁ ++ l₂) = pendingAll l₁ ++ pendingAll l₂ := by
  induction l₁ with
  | nil => rfl
  | cons r t ih => simp [pendingAll, ih]

theorem filesPending_append (l₁ l₂ : List FileStorage) :
    filesPending (l₁ ++ l₂) = filesPending l₁ ++ filesPending l₂ := by
  induction l₁ with
  | nil => rfl
  | cons f t ih => simp [filesPending, ih]

theorem sumRemaining_append (l₁ l₂ : List FileStorageReader) :
    sumRemaining (l₁ ++ l₂) = sumRemaining l₁ + sumRemaining l₂ := by
  simp [sumRemaining]

theorem mem_pendingAll {x : Record} :
    ∀ (rs : List FileStorageReader), x ∈ pendingAll rs ↔ ∃ r ∈ rs, x ∈ readerPending r
  | [] => by simp [pendingAll]
  | r :: rs => by
      simp [pendingAll, List.mem_append, mem_pendingAll rs]

/-! ## Reader and storage lemmas -/

theorem RWF_some {id : Nat} {contents : List Record} {remaining bytes_read : Nat}
    {record : Record} (hs : List.Sorted recLE contents)
    (h1 : 1 ≤ bytes_read) (h2 : bytes_read ≤ contents.length)
    (h3 : contents[bytes_read - 1]? = some record)
    (h4 : remaining + (bytes_read - 1) = contents.length) :
    RWF ⟨id, contents, remaining, bytes_read, some ⟨record, 1⟩⟩ :=
  ⟨hs, rfl, h1, h2, h3, h4⟩

theorem RWF_none {id : Nat} {contents : List Record} {remaining bytes_read : Nat}
    (hs : List.Sorted recLE contents)
    (h1 : bytes_read = contents.length) (h2 : remaining = 0) :
    RWF ⟨id, contents, remaining, bytes_read, none⟩ :=
  ⟨hs, h1, h2⟩

theorem pending_head {r : FileStorageReader} {lr : LastRead} (hwf : RWF r)
    (hl : r.last = some lr) :
    readerPending r = lr.record :: r.contents.drop r.bytes_read := by
  obtain ⟨-, hrest⟩ := hwf
  rw [hl] at hrest
  obtain ⟨-, hge, -, hget, -⟩ := hrest
  have h1 : r.contents.drop (r.bytes_read - 1) =
      lr.record :: r.contents.drop (r.bytes_read - 1 + 1) :=
    drop_eq_cons _ _ _ hget
  have h2 : r.bytes_read - 1 + 1 = r.bytes_read := by omega
  rw [h2] at h1
  simpa [readerPending, hl] using h1

theorem pending_sorted {r : FileStorageReader} (hwf : RWF r) :
    List.Sorted recLE (readerPending r) := by
  obtain ⟨hs, -⟩ := hwf
  unfold readerPending
  match h : r.last with
  | none => exact List.sorted_nil
  | some lr => exact hs.sublist (List.drop_sublist _ _)

theorem pending_len {r : FileStorageReader} (hwf : RWF r) :
    (readerPending r).length = r.remaining := by
  obtain ⟨-, hrest⟩ := hwf
  unfold readerPending
  match h : r.last with
  | none =>
      rw [h] at hrest
      simp [hrest.2]
  | some lr =>
      rw [h] at hrest
      simp only [List.length_drop]
      omega

theorem read_spec {fs : FileStorage} (c : Nat) (hwf : SWF fs) :
    ∃ r, fs.read c = some r ∧ RWF r ∧ readerPending r = storagePending fs ∧
      r.remaining = fs.remaining ∧ r.id = fs.id ∧ r.contents = fs.contents := by
  obtain ⟨hs, hple, hrem⟩ := hwf
  by_cases h0 : fs.remaining = 0
  · refine ⟨⟨fs.id, fs.contents, fs.remaining, fs.pos, none⟩, ?_, ?_, ?_, rfl, rfl, rfl⟩
    · simp [FileStorage.read, FileStorageReader.read_next, h0]
    · exact RWF_none hs (by omega) h0
    · simp [readerPending, storagePending]
      omega
  · have hlt : fs.pos < fs.contents.length := by omega
    have hget : fs.contents[fs.pos]? = some fs.contents[fs.pos] :=
      List.getElem?_eq_getElem hlt
    refine ⟨⟨fs.id, fs.contents, fs.remaining, fs.pos + 1,
             some ⟨fs.contents[fs.pos], 1⟩⟩, ?_, ?_, ?_, rfl, rfl, rfl⟩
    · simp [FileStorage.read, FileStorageReader.read_next, h0, hget]
    · exact RWF_some hs (by omega) (by omega) (by simp [hget]) (by omega)
    · simp only [readerPending, storagePending]
      congr 1

theorem read_next_spec {r : FileStorageReader} {lr : LastRead} (hwf : RWF r)
    (hl : r.last = some lr) :
    ∃ r', r.read_next = some r' ∧ RWF r' ∧
      readerPending r = lr.record :: readerPending r' ∧
      r'.remaining + 1 = r.remaining ∧ r'.id = r.id ∧ r'.contents = r.contents := by
  have hpend := pending_head hwf hl
  obtain ⟨hs, hrest⟩ := hwf
  rw [hl] at hrest
  obtain ⟨hone, hge, hle, hget, hrem⟩ := hrest
  have hrem1 : 1 ≤ r.remaining := by omega
  by_cases h0 : r.remaining - 1 = 0
  · have hbl : r.bytes_read = r.contents.length := by omega
    refine ⟨⟨r.id, r.contents, r.remaining - 1, r.bytes_read, none⟩, ?_,
            RWF_none hs hbl h0, ?_, by simp; omega, rfl, rfl⟩
    · simp [FileStorageReader.read_next, hl, h0]
    · rw [hpend]
      simp [readerPending, hbl]
  · have hlt : r.bytes_read < r.contents.length := by omega
    have hget' : r.contents[r.bytes_read]? = some r.contents[r.bytes_read] :=
      List.getElem?_eq_getElem hlt
    refine ⟨⟨r.id, r.contents, r.remaining - 1, r.bytes_read + 1,
             some ⟨r.contents[r.bytes_read], 1⟩⟩, ?_,
            RWF_some hs (by omega) (by omega) (by simp [hget']) (by omega), ?_,
            by simp; omega, rfl, rfl⟩
    · simp [FileStorageReader.read_next, hl, h0, hget']
    · rw [hpend]
      simp [readerPending]

theorem close_spec {r : FileStorageReader} (hwf : RWF r) :
    SWF r.close ∧ storagePending r.close = readerPending r ∧
      r.close.remaining = r.remaining ∧ r.close.id = r.id ∧
      r.close.contents = r.contents := by
  obtain ⟨hs, hrest⟩ := hwf
  unfold FileStorageReader.close storagePending
  match h : r.last with
  | none =>
      rw [h] at hrest
      exact ⟨⟨hs, by simp [hrest.1], by simp [hrest.1, hrest.2]⟩,
        by simp [readerPending, h, hrest.1], rfl, rfl, rfl⟩
  | some lr =>
      rw [h] at hrest
      obtain ⟨hone, hge, hle, hget, hrem⟩ := hrest
      exact ⟨⟨hs, by simp [hone]; omega, by simp [hone]; omega⟩,
        by simp [readerPending, h, hone], rfl, rfl, rfl⟩

/-! ## Selection of the reader with the earliest head -/

theorem candidatesFrom_eq_nil :
    ∀ (k : Nat) (rs : List FileStorageReader), candidatesFrom k rs = [] →
      ∀ r ∈ rs, headTs r = none
  | _, [], _, r, hr => by simp at hr
  | k, r₀ :: rs, h, r, hr => by
      unfold candidatesFrom at h
      match hh : headTs r₀ with
      | some t => rw [hh] at h; simp at h
      | none =>
          rw [hh] at h
          rcases hr with _ | hr
          · exact hh
          · exact candidatesFrom_eq_nil (k + 1) rs h r (by assumption)

theorem candidatesFrom_sound :
    ∀ (k : Nat) (rs : List FileStorageReader) (i t : Nat),
      (i, t) ∈ candidatesFrom k rs →
      ∃ r, rs[i - k]? = some r ∧ headTs r = some t ∧ k ≤ i
  | _, [], i, t, h => by simp [candidatesFrom] at h
  | k, r₀ :: rs, i, t, h => by
      unfold candidatesFrom at h
      match hh : headTs r₀ with
      | some t₀ =>
          rw [hh] at h
          rcases List.mem_cons.1 h with heq | htail
          · simp only [Prod.mk.injEq] at heq
            obtain ⟨rfl, rfl⟩ := heq
            exact ⟨r₀, by simp, hh, Nat.le_refl _⟩
          · obtain ⟨r, hget, hts, hk⟩ := candidatesFrom_sound (k + 1) rs i t htail
            refine ⟨r, ?_, hts, by omega⟩
            have hik : i - k = (i - (k + 1)) + 1 := by omega
            simpa [hik] using hget
      | none =>
          rw [hh] at h
          obtain ⟨r, hget, hts, hk⟩ := candidatesFrom_sound (k + 1) rs i t h
          refine ⟨r, ?_, hts, by omega⟩
          have hik : i - k = (i - (k + 1)) + 1 := by omega
          simpa [hik] using hget

theorem candidatesFrom_complete :
    ∀ (k : Nat) (rs : List FileStorageReader) (j t : Nat) (r : FileStorageReader),
      rs[j]? = some r → headTs r = some t → (k + j, t) ∈ candidatesFrom k rs
  | _, [], j, _, _, hget, _ => by simp at hget
  | k, r₀ :: rs, 0, t, r, hget, hts => by
      simp at hget
      subst hget
      simp [candidatesFrom, hts]
  | k, r₀ :: rs, j + 1, t, r, hget, hts => by
      simp at hget
      have := candidatesFrom_complete (k + 1) rs j t r hget hts
      unfold candidatesFrom
      match hh : headTs r₀ with
      | some t₀ =>
          refine List.mem_cons.2 (Or.inr ?_)
          simpa [Nat.add_assoc, Nat.add_comm 1 j] using this
      | none => simpa [Nat.add_assoc, Nat.add_comm 1 j] using this

theorem foldl_min_spec :
    ∀ (xs : List (Nat × Nat)) (a : Nat × Nat),
      (xs.foldl (fun best y => if y.2 < best.2 then y else best) a = a ∨
        xs.foldl (fun best y => if y.2 < best.2 then y else best) a ∈ xs) ∧
      (xs.foldl (fun best y => if y.2 < best.2 then y else best) a).2 ≤ a.2 ∧
      ∀ y ∈ xs, (xs.foldl (fun best y => if y.2 < best.2 then y else best) a).2 ≤ y.2
  | [], a => ⟨Or.inl rfl, Nat.le_refl _, by simp⟩
  | x :: xs, a => by
      obtain ⟨hmem, hle, hall⟩ := foldl_min_spec xs (if x.2 < a.2 then x else a)
      simp only [List.foldl_cons]
      refine ⟨?_, ?_, ?_⟩
      · rcases hmem with h | h
        · rw [h]
          by_cases hx : x.2 < a.2
          · simp [hx]
          · simp [hx]
        · exact Or.inr (List.mem_cons.2 (Or.inr h))
      · refine Nat.le_trans hle ?_
        by_cases hx : x.2 < a.2
        · simp [hx]; omega
        · simp [hx]
      · intro y hy
        rcases List.mem_cons.1 hy with rfl | hy
        · refine Nat.le_trans hle ?_
          by_cases hx : y.2 < a.2
          · simp [hx]
          · simp [hx]; omega
        · exact hall y hy

theorem minByFirst_spec {l : List (Nat × Nat)} {x : Nat × Nat}
    (h : minByFirst l = some x) : x ∈ l ∧ ∀ y ∈ l, x.2 ≤ y.2 := by
  match l with
  | [] => simp [minByFirst] at h
  | a :: xs =>
      simp only [minByFirst, Option.some.injEq] at h
      obtain ⟨hmem, hle, hall⟩ := foldl_min_spec xs a
      rw [h] at hmem hle hall
      constructor
      · rcases hmem with rfl | hmem
        · exact List.mem_cons_self _ _
        · exact List.mem_cons.2 (Or.inr hmem)
      · intro y hy
        rcases List.mem_cons.1 hy with rfl | hy
        · exact hle
        · exact hall y hy

theorem headTs_eq_some {r : FileStorageReader} {t : Nat} :
    headTs r = some t ↔ ∃ lr, r.last = some lr ∧ lr.record.timestamp = t := by
  unfold headTs
  match h : r.last with
  | none => simp
  | some lr => simp

theorem pickMinIdx_none {rs : List FileStorageReader} (h : pickMinIdx rs = none) :
    ∀ r ∈ rs, r.last = none := by
  intro r hr
  unfold pickMinIdx at h
  match hm : minByFirst (candidatesFrom 0 rs) with
  | some p => rw [hm] at h; simp at h
  | none =>
      match hc : candidatesFrom 0 rs with
      | [] =>
          have := candidatesFrom_eq_nil 0 rs hc r hr
          unfold headTs at this
          match hl : r.last with
          | none => rfl
          | some lr => rw [hl] at this; simp at this
      | c :: cs => simp [minByFirst, hc] at hm

theorem pickMinIdx_some {rs : List FileStorageReader} {i : Nat}
    (h : pickMinIdx rs = some i) :
    ∃ r lr, rs[i]? = some r ∧ r.last = some lr ∧
      ∀ (j : Nat) (r' : FileStorageReader) (lr' : LastRead),
        rs[j]? = some r' → r'.last = some lr' →
        lr.record.timestamp ≤ lr'.record.timestamp := by
  unfold pickMinIdx at h
  match hm : minByFirst (candidatesFrom 0 rs) with
  | none => rw [hm] at h; simp at h
  | some p =>
      rw [hm] at h
      simp at h
      obtain ⟨hmem, hall⟩ := minByFirst_spec hm
      obtain ⟨r, hget, hts, -⟩ := candidatesFrom_sound 0 rs p.1 p.2 hmem
      obtain ⟨lr, hlast, hlrt⟩ := headTs_eq_some.1 hts
      simp only [Nat.sub_zero] at hget
      refine ⟨r, lr, h ▸ hget, hlast, ?_⟩
      intro j r' lr' hget' hlast'
      have hcand : (0 + j, lr'.record.timestamp) ∈ candidatesFrom 0 rs :=
        candidatesFrom_complete 0 rs j lr'.record.timestamp r' hget'
          (headTs_eq_some.2 ⟨lr', hlast', rfl⟩)
      have hle2 := hall _ hcand
      rw [hlrt]
      simpa using hle2

theorem pendingAll_eq_nil {rs : List FileStorageReader}
    (h : ∀ r ∈ rs, r.last = none) : pendingAll rs = [] := by
  induction rs with
  | nil => rfl
  | cons r rs ih =>
      have hr := h r (List.mem_cons_self r rs)
      simp [pendingAll, readerPending, hr, ih (fun x hx => h x (List.mem_cons.2 (Or.inr hx)))]

theorem min_head_le_pending {rs : List FileStorageReader} (hwf : ∀ r ∈ rs, RWF r)
    {t : Nat}
    (hmin : ∀ (j : Nat) (r' : FileStorageReader) (lr' : LastRead),
      rs[j]? = some r' → r'.last = some lr' → t ≤ lr'.record.timestamp) :
    ∀ x ∈ pendingAll rs, t ≤ x.timestamp := by
  intro x hx
  obtain ⟨r, hr, hxr⟩ := (mem_pendingAll rs).1 hx
  have hrwf := hwf r hr
  match hl : r.last with
  | none => simp [readerPending, hl] at hxr
  | some lr =>
      obtain ⟨j, hj⟩ := List.mem_iff_getElem?.1 hr
      have hlb : t ≤ lr.record.timestamp := hmin j r lr hj hl
      have hpend := pending_head hrwf hl
      have hsort := pending_sorted hrwf
      rw [hpend] at hxr hsort
      rcases List.mem_cons.1 hxr with rfl | hxr
      · exact hlb
      · exact Nat.le_trans hlb ((List.pairwise_cons.1 hsort).1 x hxr)

/-! ## The merge loop -/

theorem mergeLoop_spec (w : Nat) :
    ∀ (fuel : Nat) (rs : List FileStorageReader) (acc : List Record) (d : Nat),
      (∀ r ∈ rs, RWF r) → sumRemaining rs < fuel →
      ∃ rs' chunk e',
        mergeLoop w fuel rs acc d = some (rs', acc ++ chunk, d + chunk.length, e') ∧
        (∀ r ∈ rs', RWF r) ∧
        idsOf rs' = idsOf rs ∧
        chunk.Perm ((pendingAll rs).filter (fun x => x.timestamp ≤ w)) ∧
        (pendingAll rs').Perm ((pendingAll rs).filter (fun x => w < x.timestamp)) ∧
        List.Sorted recLE chunk ∧
        EarliestChar e' (pendingAll rs') := by
  intro fuel
  induction fuel with
  | zero => intro rs acc d _ hfuel; exact absurd hfuel (Nat.not_lt_zero _)
  | succ fuel ih =>
    intro rs acc d hwf hfuel
    match hpick : pickMinIdx rs with
    | none =>
        have hpend : pendingAll rs = [] := pendingAll_eq_nil (pickMinIdx_none hpick)
        refine ⟨rs, [], none, ?_, hwf, rfl, ?_, ?_, List.sorted_nil, ?_⟩
        · simp [mergeLoop, hpick]
        · simp [hpend]
        · simp [hpend]
        · simp [EarliestChar, hpend]
    | some i =>
        obtain ⟨r, lr, hget, hlast, hmin⟩ := pickMinIdx_some hpick
        have hrmem : r ∈ rs := List.getElem?_mem hget
        have hrwf := hwf r hrmem
        have hlb : ∀ x ∈ pendingAll rs, lr.record.timestamp ≤ x.timestamp :=
          min_head_le_pending hwf hmin
        have hheadmem : lr.record ∈ pendingAll rs :=
          (mem_pendingAll rs).2 ⟨r, hrmem, by rw [pending_head hrwf hlast]; exact List.mem_cons_self _ _⟩
        by_cases hbr : w < lr.record.timestamp
        · refine ⟨rs, [], some lr.record.timestamp, ?_, hwf, rfl, ?_, ?_, List.sorted_nil, ?_⟩
          · simp [mergeLoop, hpick, hget, hlast, hbr]
          · have hnil : (pendingAll rs).filter (fun x => x.timestamp ≤ w) = [] := by
              refine List.filter_eq_nil_iff.2 ?_
              intro x hx
              have hx2 := hlb x hx
              simp only [decide_eq_true_eq]
              exact Nat.not_le.2 (Nat.lt_of_lt_of_le hbr hx2)
            simp [hnil]
          · have hall : (pendingAll rs).filter (fun x => w < x.timestamp) = pendingAll rs := by
              refine List.filter_eq_self.2 ?_
              intro x hx
              have hx2 := hlb x hx
              simp only [decide_eq_true_eq]
              exact Nat.lt_of_lt_of_le hbr hx2
            simp [hall]
          · exact ⟨⟨lr.record, hheadmem, rfl⟩, fun x hx => hlb x hx⟩
        · obtain ⟨r', hread, hrwf', hpend', hrem', hid', -⟩ := read_next_spec hrwf hlast
          obtain ⟨l₁, l₂, hdecomp, -, hset⟩ := getElem?_decomp rs i r hget
          have hrs₂ : rs.set i r' = l₁ ++ r' :: l₂ := hset r'
          have hwf₂ : ∀ x ∈ rs.set i r', RWF x := by
            rw [hrs₂]
            intro x hx
            rcases List.mem_append.1 hx with hx | hx
            · exact hwf x (hdecomp ▸ List.mem_append.2 (Or.inl hx))
            · rcases List.mem_cons.1 hx with rfl | hx
              · exact hrwf'
              · exact hwf x (hdecomp ▸ List.mem_append.2 (Or.inr (List.mem_cons.2 (Or.inr hx))))
          have hsum : sumRemaining (rs.set i r') + 1 = sumRemaining rs := by
            rw [hrs₂, sumRemaining_append, hdecomp, sumRemaining_append]
            simp only [sumRemaining, List.map_cons, List.sum_cons]
            omega
          have hPrs : pendingAll rs = pendingAll l₁ ++ lr.record ::
              (readerPending r' ++ pendingAll l₂) := by
            rw [hdecomp, pendingAll_append]
            simp [pendingAll, hpend']
          have hPrs₂ : pendingAll (rs.set i r') =
              pendingAll l₁ ++ (readerPending r' ++ pendingAll l₂) := by
            rw [hrs₂, pendingAll_append]
            simp [pendingAll]
          have hperm : (pendingAll rs).Perm (lr.record :: pendingAll (rs.set i r')) := by
            rw [hPrs, hPrs₂]
            exact List.perm_middle
          obtain ⟨rs', chunk₂, e', hrun, hwf', hids, hchunk₂, hres, hsort₂, hchar⟩ :=
            ih (rs.set i r') (acc ++ [lr.record]) (d + 1) hwf₂ (by omega)
          have happ : (acc ++ [lr.record]) ++ chunk₂ = acc ++ lr.record :: chunk₂ := by simp
          have hlen2 : (d + 1) + chunk₂.length = d + (lr.record :: chunk₂).length := by
            simp; omega
          rw [happ, hlen2] at hrun
          refine ⟨rs', lr.record :: chunk₂, e', ?_, hwf', ?_, ?_, ?_, ?_, hchar⟩
          · simp only [mergeLoop, hpick, hget, hlast, hread]
            rw [if_neg hbr]
            exact hrun
          · rw [hids, idsOf, idsOf, hrs₂, hdecomp]
            simp [hid']
          · have h1 : ((pendingAll rs).filter (fun x => x.timestamp ≤ w)).Perm
                (lr.record :: (pendingAll (rs.set i r')).filter (fun x => x.timestamp ≤ w)) := by
              refine (hperm.filter _).trans ?_
              rw [List.filter_cons_of_pos (by simp only [decide_eq_true_eq]; omega)]
            exact ((hchunk₂.cons lr.record).trans h1.symm)
          · have h2 : ((pendingAll rs).filter (fun x => w < x.timestamp)).Perm
                ((pendingAll (rs.set i r')).filter (fun x => w < x.timestamp)) := by
              refine (hperm.filter _).trans ?_
              rw [List.filter_cons_of_neg (by simp only [decide_eq_true_eq]; omega)]
            exact hres.trans h2.symm
          · refine List.pairwise_cons.2 ⟨?_, hsort₂⟩
            intro b hb
            have hb' : b ∈ pendingAll (rs.set i r') :=
              List.mem_of_mem_filter (hchunk₂.mem_iff.1 hb)
            have : b ∈ pendingAll rs :=
              hperm.mem_iff.2 (List.mem_cons.2 (Or.inr hb'))
            exact hlb b this

/-! ## Opening, closing and spilling -/

theorem EarliestChar_perm {e : Option Nat} {l l' : List Record}
    (hp : l.Perm l') (h : EarliestChar e l) : EarliestChar e l' := by
  match e with
  | none =>
      have hl : l = [] := h
      rw [hl] at hp
      exact hp.symm.eq_nil
  | some m =>
      obtain ⟨⟨x, hx, hxm⟩, hlb⟩ := h
      exact ⟨⟨x, hp.mem_iff.1 hx, hxm⟩, fun y hy => hlb y (hp.mem_iff.2 hy)⟩

theorem filter_partition_perm (l : List Record) (w : Nat) :
    (l.filter (fun x => x.timestamp ≤ w) ++ l.filter (fun x => w < x.timestamp)).Perm l := by
  have hfun : (fun x : Record => decide (w < x.timestamp)) =
      (fun x : Record => !decide (x.timestamp ≤ w)) := by
    funext x
    rw [show (decide (w < x.timestamp)) = (decide ¬(x.timestamp ≤ w)) from
      decide_eq_decide.2 Nat.not_le.symm, decide_not]
  rw [hfun]
  exact List.filter_append_perm _ l

theorem openAll_spec :
    ∀ (c : Nat) (fs : List FileStorage), (∀ f ∈ fs, SWF f) →
      ∃ rs, openAll c fs = some rs ∧ (∀ r ∈ rs, RWF r) ∧
        pendingAll rs = filesPending fs ∧
        idsOf rs = fs.map (fun f => f.id)
  | _, [], _ => ⟨[], rfl, by simp, rfl, rfl⟩
  | c, f :: fs, h => by
      obtain ⟨r, hr, hrwf, hpend, -, hid, -⟩ := read_spec c (h f (List.mem_cons_self f fs))
      obtain ⟨rs, hrs, hwfs, hpendAll, hids⟩ :=
        openAll_spec c fs (fun g hg => h g (List.mem_cons.2 (Or.inr hg)))
      refine ⟨r :: rs, ?_, ?_, ?_, ?_⟩
      · simp [openAll, hr, hrs]
      · intro x hx
        rcases List.mem_cons.1 hx with rfl | hx
        · exact hrwf
        · exact hwfs x hx
      · simp [pendingAll, filesPending, hpend, hpendAll]
      · simp only [idsOf] at hids ⊢
        simp [hid, hids]

theorem closeAll_spec :
    ∀ (rs : List FileStorageReader), (∀ r ∈ rs, RWF r) →
      (∀ f ∈ closeAll rs, SWF f ∧ f.remaining ≠ 0 ∧ f.id ∈ idsOf rs) ∧
      filesPending (closeAll rs) = pendingAll rs
  | [], _ => ⟨by simp [closeAll], rfl⟩
  | r :: rs, h => by
      have hrwf := h r (List.mem_cons_self r rs)
      obtain ⟨hmemf, hpendf⟩ :=
        closeAll_spec rs (fun x hx => h x (List.mem_cons.2 (Or.inr hx)))
      obtain ⟨hswf, hsp, hrem, hid, -⟩ := close_spec hrwf
      by_cases h0 : r.close.remaining = 0
      · have hpr : readerPending r = [] := by
          have hlen := pending_len hrwf
          have hr0 : r.remaining = 0 := by rw [← hrem]; exact h0
          exact List.length_eq_zero.1 (by rw [hlen, hr0])
      -- the closed run is empty and gets dropped
        have hca : closeAll (r :: rs) = closeAll rs := by
          simp only [closeAll, List.filterMap_cons]
          rw [if_pos (by simp [FileStorage.is_empty, h0])]
        refine ⟨?_, ?_⟩
        · intro f hf
          rw [hca] at hf
          obtain ⟨h1, h2, h3⟩ := hmemf f hf
          exact ⟨h1, h2, by simp [idsOf] at h3 ⊢; exact Or.inr h3⟩
        · rw [hca, hpendf]
          simp [pendingAll, hpr]
      · have hca : closeAll (r :: rs) = r.close :: closeAll rs := by
          simp only [closeAll, List.filterMap_cons]
          rw [if_neg (by simp [FileStorage.is_empty, h0])]
        refine ⟨?_, ?_⟩
        · intro f hf
          rw [hca] at hf
          rcases List.mem_cons.1 hf with rfl | hf
          · exact ⟨hswf, h0, by simp [idsOf, hid]⟩
          · obtain ⟨h1, h2, h3⟩ := hmemf f hf
            exact ⟨h1, h2, by simp [idsOf] at h3 ⊢; exact Or.inr h3⟩
        · rw [hca]
          simp only [filesPending, pendingAll, hpendf, hsp]

theorem FileStorage_new_spec (id : Nat) {heap : List Record} (h : heap ≠ []) :
    ∃ fs, FileStorage.new id heap = some fs ∧ SWF fs ∧ fs.contents.Perm heap ∧
      fs.pos = 0 ∧ fs.remaining = heap.length ∧ fs.id = id ∧
      storagePending fs = fs.contents := by
  have hlen : heap.length ≠ 0 := by
    simpa using (fun hh => h (List.length_eq_zero.1 hh))
  have hperm : (List.insertionSort recLE heap).Perm heap := List.perm_insertionSort recLE heap
  refine ⟨⟨id, List.insertionSort recLE heap, 0, heap.length⟩, ?_, ?_, hperm, rfl, rfl, rfl, ?_⟩
  · simp [FileStorage.new, hlen]
  · exact ⟨List.sorted_insertionSort recLE heap, by simp, by simp [hperm.length_eq]⟩
  · simp [storagePending]

theorem dump_in_memory_spill {b : Buffer} (hne : b.in_memory.heap ≠ []) :
    ∃ fs, SWF fs ∧ fs.contents.Perm b.in_memory.heap ∧ fs.pos = 0 ∧
      fs.remaining = b.in_memory.heap.length ∧ fs.id = b.files_counter ∧
      storagePending fs = fs.contents ∧
      b.dump_in_memory = { b with in_memory := { b.in_memory with heap := [] },
                                  files_counter := b.files_counter + 1,
                                  files := b.files ++ [fs] } := by
  obtain ⟨fs, hnew, hswf, hperm, hpos, hrem, hid, hsp⟩ :=
    FileStorage_new_spec b.files_counter hne
  refine ⟨fs, hswf, hperm, hpos, hrem, hid, hsp, ?_⟩
  have hlen : b.in_memory.len ≠ 0 := by
    simpa [InMemBuffer.len] using (fun hh => hne (List.length_eq_zero.1 hh))
  simp only [Buffer.dump_in_memory, if_neg hlen, InMemBuffer.drain_into_file, hnew]

theorem dump_in_memory_nop {b : Buffer} (he : b.in_memory.heap = []) :
    b.dump_in_memory = b := by
  simp [Buffer.dump_in_memory, InMemBuffer.len, he]

theorem dump_in_memory_state {b : Buffer} (hb : PreWF b) :
    PreWF b.dump_in_memory ∧ b.dump_in_memory.in_memory.heap = [] ∧
    b.dump_in_memory.residents.Perm b.residents ∧
    b.dump_in_memory.output = b.output ∧
    b.dump_in_memory.in_memory.capacity = b.in_memory.capacity ∧
    b.dump_in_memory.file_read_buf_capacity = b.file_read_buf_capacity ∧
    b.dump_in_memory.earliest_buffered_timestamp = b.earliest_buffered_timestamp ∧
    b.files_counter ≤ b.dump_in_memory.files_counter := by
  by_cases he : b.in_memory.heap = []
  · rw [dump_in_memory_nop he]
    exact ⟨hb, he, List.Perm.refl _, rfl, rfl, rfl, rfl, Nat.le_refl _⟩
  · obtain ⟨fs, hswf, hperm, hpos, hrem, hid, hsp, heq⟩ := dump_in_memory_spill he
    have hres : b.dump_in_memory.residents.Perm b.residents := by
      rw [heq]
      simp only [Buffer.residents, filesPending_append, filesPending, List.nil_append,
        List.append_nil, hsp]
      refine List.Perm.trans List.perm_append_comm ?_
      exact hperm.append_right _
    refine ⟨?_, by rw [heq], hres, by rw [heq], by rw [heq], by rw [heq], by rw [heq],
      by rw [heq]; exact Nat.le_succ _⟩
    refine ⟨by rw [heq]; exact hb.cap_pos, ?_, ?_, ?_, ?_⟩
    · rw [heq]
      intro f hf
      simp only [List.mem_append, List.mem_singleton] at hf
      rcases hf with hf | rfl
      · exact hb.files_wf f hf
      · exact hswf
    · rw [heq]
      intro f hf
      simp only [List.mem_append, List.mem_singleton] at hf
      rcases hf with hf | rfl
      · exact hb.files_ne f hf
      · rw [hrem]
        simpa using (fun hh => he (List.length_eq_zero.1 hh))
    · rw [heq]
      intro f hf
      simp only [List.mem_append, List.mem_singleton] at hf
      rcases hf with hf | rfl
      · have hlt := hb.ids_lt f hf
        simp only
        omega
      · simp only [hid]
        omega
    · have hE : b.dump_in_memory.earliest_buffered_timestamp =
          b.earliest_buffered_timestamp := by rw [heq]
      rw [hE]
      exact EarliestChar_perm hres.symm hb.earliest

/-! ## `push_record` -/

theorem EarliestChar_push {e : Option Nat} {l : List Record} (h : EarliestChar e l)
    (r : Record) :
    EarliestChar (some (minTs e r.timestamp)) (r :: l) := by
  unfold minTs
  match e with
  | none =>
      have hl : l = [] := h
      subst hl
      refine ⟨⟨r, List.mem_cons_self _ _, rfl⟩, ?_⟩
      intro x hx
      simp at hx
      subst hx
      exact Nat.le_refl _
  | some prev =>
      obtain ⟨⟨x, hx, hxm⟩, hlb⟩ := h
      by_cases hlt : r.timestamp < prev
      · simp only [if_pos hlt]
        refine ⟨⟨r, List.mem_cons_self _ _, rfl⟩, ?_⟩
        intro y hy
        rcases List.mem_cons.1 hy with rfl | hy
        · exact Nat.le_refl _
        · exact Nat.le_trans (Nat.le_of_lt hlt) (hlb y hy)
      · simp only [if_neg hlt]
        refine ⟨⟨x, List.mem_cons.2 (Or.inr hx), hxm⟩, ?_⟩
        intro y hy
        rcases List.mem_cons.1 hy with rfl | hy
        · exact Nat.le_of_not_lt hlt
        · exact hlb y hy

theorem push_record_spec {b : Buffer} (hb : BWF b) (r : Record) :
    BWF (b.push_record r) ∧
    (b.push_record r).residents.Perm (r :: b.residents) ∧
    (b.push_record r).output = b.output ∧
    (b.push_record r).in_memory.capacity = b.in_memory.capacity ∧
    b.files_counter ≤ (b.push_record r).files_counter := by
  obtain ⟨hpre, hmem⟩ := hb
  have hres2 : ({ b with
      earliest_buffered_timestamp := some (minTs b.earliest_buffered_timestamp r.timestamp),
      in_memory := b.in_memory.push r } : Buffer).residents = r :: b.residents := by
    simp [Buffer.residents, InMemBuffer.push]
  have hpre2 : PreWF { b with
      earliest_buffered_timestamp := some (minTs b.earliest_buffered_timestamp r.timestamp),
      in_memory := b.in_memory.push r } := by
    refine ⟨hpre.cap_pos, hpre.files_wf, hpre.files_ne, hpre.ids_lt, ?_⟩
    rw [hres2]
    exact EarliestChar_push hpre.earliest r
  by_cases hfull : (b.in_memory.push r).heap.length = b.in_memory.capacity
  · have hstep : b.push_record r = ({ b with
        earliest_buffered_timestamp := some (minTs b.earliest_buffered_timestamp r.timestamp),
        in_memory := b.in_memory.push r } : Buffer).dump_in_memory := by
      simp only [Buffer.push_record, InMemBuffer.is_full]
      rw [if_pos (by simpa using hfull)]
      rfl
    obtain ⟨hpre1, hheap1, hres1, hout1, hcap1, -, -, hc1⟩ := dump_in_memory_state hpre2
    rw [hstep]
    refine ⟨⟨hpre1, ?_⟩, ?_, ?_, ?_, hc1⟩
    · rw [hheap1, hcap1]
      simpa using hpre.cap_pos
    · exact hres1.trans (hres2 ▸ List.Perm.refl _)
    · exact hout1
    · exact hcap1
  · have hstep : b.push_record r = { b with
        earliest_buffered_timestamp := some (minTs b.earliest_buffered_timestamp r.timestamp),
        in_memory := b.in_memory.push r } := by
      simp only [Buffer.push_record, InMemBuffer.is_full]
      rw [if_neg (by simpa using hfull)]
      rfl
    rw [hstep]
    refine ⟨⟨hpre2, ?_⟩, by rw [hres2], rfl, rfl, Nat.le_refl _⟩
    have : (b.in_memory.push r).heap.length = b.in_memory.heap.length + 1 := by
      simp [InMemBuffer.push]
    simp only [InMemBuffer.push] at hfull ⊢
    simp only [List.length_cons] at hfull ⊢
    omega

/-! ## `dump_safe`: the master theorem -/

theorem dump_safe_spec {b : Buffer} (hb : BWF b) (w : Nat) :
    ∃ chunk b', b.dump_safe w = some (chunk.length, b') ∧ BWF b' ∧
      b'.output = b.output ++ chunk ∧ List.Sorted recLE chunk ∧
      chunk.Perm (b.residents.filter (fun x => x.timestamp ≤ w)) ∧
      b'.residents.Perm (b.residents.filter (fun x => w < x.timestamp)) ∧
      b'.in_memory.capacity = b.in_memory.capacity ∧
      b.files_counter ≤ b'.files_counter := by
  obtain ⟨hpre, hmem⟩ := hb
  match hE : b.earliest_buffered_timestamp with
  | none =>
      have hres0 : b.residents = [] := by
        have h := hpre.earliest
        rw [hE] at h
        exact h
      refine ⟨[], b, ?_, ⟨hpre, hmem⟩, by simp, List.sorted_nil, ?_, ?_, rfl, Nat.le_refl _⟩
      · simp [Buffer.dump_safe, hE]
      · simp [hres0]
      · simp [hres0]
  | some m =>
      by_cases hm : m ≤ w
      · -- something to dump: spill, open, merge, close
        obtain ⟨hpre1, hheap1, hres1, hout1, hcap1, hfrc1, hE1, hc1⟩ :=
          dump_in_memory_state hpre
        obtain ⟨readers, hopen, hrwf, hpendrs, hids⟩ :=
          openAll_spec b.dump_in_memory.file_read_buf_capacity b.dump_in_memory.files
            (fun f hf => hpre1.files_wf f hf)
        obtain ⟨rs', chunk, e', hrun, hwf', hids', hchunk, hresid, hsort, hchar⟩ :=
          mergeLoop_spec w (sumRemaining readers + 1) readers [] 0 hrwf
            (Nat.lt_succ_self _)
        simp only [List.nil_append, Nat.zero_add] at hrun
        have hpendb1 : pendingAll readers = b.dump_in_memory.residents := by
          rw [hpendrs, Buffer.residents, hheap1, List.nil_append]
        obtain ⟨hclosemem, hclosepend⟩ := closeAll_spec rs' hwf'
        have hcomp : b.dump_safe w = some (chunk.length,
            { b.dump_in_memory with
              files := closeAll rs',
              earliest_buffered_timestamp := e',
              output := b.dump_in_memory.output ++ chunk }) := by
          simp only [Buffer.dump_safe, hE, hm, decide_True, if_true, hopen, hrun]
        have hresb' : ({ b.dump_in_memory with
            files := closeAll rs',
            earliest_buffered_timestamp := e',
            output := b.dump_in_memory.output ++ chunk } : Buffer).residents =
            pendingAll rs' := by
          rw [Buffer.residents]
          simp only [hheap1, List.nil_append]
          exact hclosepend
        refine ⟨chunk, _, hcomp, ?_, ?_, hsort, ?_, ?_, ?_, ?_⟩
        · refine ⟨⟨?_, ?_, ?_, ?_, ?_⟩, ?_⟩
          · simpa using hpre1.cap_pos
          · intro f hf
            exact (hclosemem f hf).1
          · intro f hf
            exact (hclosemem f hf).2.1
          · intro f hf
            have hmemid : f.id ∈ idsOf rs' := (hclosemem f hf).2.2
            rw [hids', hids] at hmemid
            obtain ⟨g, hg, hgid⟩ := List.mem_map.1 hmemid
            have := hpre1.ids_lt g hg
            simp only
            omega
          · rw [hresb']
            exact hchar
          · simp only [hheap1]
            simpa using hpre1.cap_pos
        · simp only [hout1]
        · refine hchunk.trans ?_
          rw [hpendb1]
          exact hres1.filter _
        · rw [hresb']
          refine hresid.trans ?_
          rw [hpendb1]
          exact hres1.filter _
        · simpa using hcap1
        · simpa using hc1
      · -- cached minimum above the watermark: nothing to dump
        have h := hpre.earliest
        rw [hE] at h
        obtain ⟨⟨x, hx, hxm⟩, hlb⟩ := h
        refine ⟨[], b, ?_, ⟨hpre, hmem⟩, by simp, List.sorted_nil, ?_, ?_, rfl, Nat.le_refl _⟩
        · simp [Buffer.dump_safe, hE, hm]
        · have hnil : b.residents.filter (fun y => y.timestamp ≤ w) = [] := by
            refine List.filter_eq_nil_iff.2 ?_
            intro y hy
            have h2 := hlb y hy
            simp only [decide_eq_true_eq]
            intro hc
            exact hm (Nat.le_trans h2 hc)
          simp [hnil]
        · have hself : b.residents.filter (fun y => w < y.timestamp) = b.residents := by
            refine List.filter_eq_self.2 ?_
            intro y hy
            have h2 := hlb y hy
            simp only [decide_eq_true_eq]
            exact Nat.lt_of_lt_of_le (Nat.lt_of_not_le hm) h2
          simp [hself]

/-! ## Reachability -/

theorem reachable_BWF {b : Buffer} (h : Reachable b) : BWF b := by
  induction h with
  | new cfg hcap =>
      refine ⟨⟨hcap, by simp [Buffer.new], by simp [Buffer.new], by simp [Buffer.new], ?_⟩,
        by simpa [Buffer.new, InMemBuffer.with_capacity] using hcap⟩
      show EarliestChar none (Buffer.new cfg).residents
      simp [Buffer.new, Buffer.residents, InMemBuffer.with_capacity, filesPending]
      rfl
  | push r _ ih => exact (push_record_spec ih r).1
  | dump w n _ heq ih =>
      obtain ⟨chunk, b'', heq2, hbwf, -⟩ := dump_safe_spec ih w
      rw [heq2] at heq
      simp only [Option.some.injEq, Prod.mk.injEq] at heq
      exact heq.2 ▸ hbwf

/-! ## Operation traces -/

theorem applyOp_reachable {b b₁ : Buffer} {op : Op} (hb : Reachable b)
    (h : b.applyOp op = some b₁) : Reachable b₁ := by
  match op with
  | .push r =>
      simp only [Buffer.applyOp, Option.some.injEq] at h
      exact h ▸ Reachable.push r hb
  | .dump w =>
      simp only [Buffer.applyOp] at h
      match hd : b.dump_safe w with
      | none => rw [hd] at h; simp at h
      | some (n, b₂) =>
          rw [hd] at h
          simp only [Option.map_some', Option.some.injEq] at h
          exact h ▸ Reachable.dump w n hb hd

theorem runOps_reachable :
    ∀ {ops : List Op} {b b' : Buffer}, Reachable b → runOps b ops = some b' →
      Reachable b'
  | [], b, b', hb, h => by
      simp only [runOps, Option.some.injEq] at h
      exact h ▸ hb
  | op :: ops, b, b', hb, h => by
      simp only [runOps] at h
      match hap : b.applyOp op with
      | none => rw [hap] at h; simp at h
      | some b₁ =>
          rw [hap] at h
          exact runOps_reachable (applyOp_reachable hb hap) h

theorem applyOp_conserve {b b₁ : Buffer} {op : Op} (hb : Reachable b)
    (h : b.applyOp op = some b₁) :
    (b₁.output ++ b₁.residents).Perm
      ((b.output ++ b.residents) ++ pushedRecords [op]) := by
  match op with
  | .push r =>
      simp only [Buffer.applyOp, Option.some.injEq] at h
      subst h
      obtain ⟨-, hres, hout, -, -⟩ := push_record_spec (reachable_BWF hb) r
      have h1 : ((b.push_record r).output ++ (b.push_record r).residents).Perm
          (b.output ++ (r :: b.residents)) := by
        rw [hout]
        exact hres.append_left b.output
      have h2 : (b.output ++ (r :: b.residents)).Perm
          (r :: (b.output ++ b.residents)) := List.perm_middle
      have h3 : ((b.output ++ b.residents) ++ [r]).Perm
          (r :: (b.output ++ b.residents)) := by
        refine List.Perm.trans List.perm_append_comm ?_
        exact List.Perm.refl _
      simp only [pushedRecords]
      exact (h1.trans h2).trans h3.symm
  | .dump w =>
      simp only [Buffer.applyOp] at h
      match hd : b.dump_safe w with
      | none => rw [hd] at h; simp at h
      | some (n, b₂) =>
          rw [hd] at h
          simp only [Option.map_some', Option.some.injEq] at h
          subst h
          obtain ⟨chunk, b'', heq, -, hout, -, hchunk, hres, -, -⟩ :=
            dump_safe_spec (reachable_BWF hb) w
          rw [heq] at hd
          simp only [Option.some.injEq, Prod.mk.injEq] at hd
          obtain ⟨-, rfl⟩ := hd
          simp only [pushedRecords, List.append_nil]
          rw [hout]
          rw [List.append_assoc]
          refine List.Perm.append_left b.output ?_
          refine List.Perm.trans (hres.append_left chunk) ?_
          refine List.Perm.trans ((hchunk.append_right _)) ?_
          exact filter_partition_perm b.residents w

theorem runOps_conserve :
    ∀ {ops : List Op} {b b' : Buffer}, Reachable b → runOps b ops = some b' →
      (b'.output ++ b'.residents).Perm
        ((b.output ++ b.residents) ++ pushedRecords ops)
  | [], b, b', hb, h => by
      simp only [runOps, Option.some.injEq] at h
      subst h
      simp [pushedRecords]
  | op :: ops, b, b', hb, h => by
      simp only [runOps] at h
      match hap : b.applyOp op with
      | none => rw [hap] at h; simp at h
      | some b₁ =>
          rw [hap] at h
          have hstep := applyOp_conserve hb hap
          have hrest := runOps_conserve (applyOp_reachable hb hap) h
          have hpush : pushedRecords (op :: ops) =
              pushedRecords [op] ++ pushedRecords ops := by
            match op with
            | .push r => simp [pushedRecords]
            | .dump w => simp [pushedRecords]
          rw [hpush, ← List.append_assoc]
          exact hrest.trans (hstep.append_right _)

/-! ## `find_earliest_timestamp` -/

theorem findEarliestGo_none :
    ∀ (items : List (Option Nat)) (acc : Option Nat),
      (findEarliestGo acc items = none ↔ none ∈ items)
  | [], acc => by simp [findEarliestGo]
  | none :: rest, acc => by simp [findEarliestGo]
  | some x :: rest, acc => by
      simp only [findEarliestGo]
      rw [findEarliestGo_none rest]
      simp

theorem findEarliestGo_some :
    ∀ (items : List (Option Nat)) (y : Nat), none ∉ items →
      ∃ v, findEarliestGo (some y) items = some (some v) ∧ v ≤ y ∧
        (v = y ∨ some v ∈ items) ∧ (∀ x : Nat, some x ∈ items → v ≤ x)
  | [], y, _ => ⟨y, rfl, Nat.le_refl _, Or.inl rfl, by simp⟩
  | none :: rest, y, h => absurd (List.mem_cons_self _ _) h
  | some x :: rest, y, h => by
      obtain ⟨v, hgo, hvy, hmem, hlb⟩ :=
        findEarliestGo_some rest (min x y) (fun hc => h (List.mem_cons.2 (Or.inr hc)))
      refine ⟨v, ?_, ?_, ?_, ?_⟩
      · simpa [findEarliestGo] using hgo
      · exact Nat.le_trans hvy (Nat.min_le_right x y)
      · rcases hmem with rfl | hmem
        · rcases Nat.le_total x y with hxy | hxy
          · refine Or.inr (List.mem_cons.2 (Or.inl ?_))
            rw [Nat.min_def, if_pos hxy]
          · left
            rw [Nat.min_def]
            by_cases hc : x ≤ y
            · rw [if_pos hc]
              omega
            · rw [if_neg hc]
        · exact Or.inr (List.mem_cons.2 (Or.inr hmem))
      · intro z hz
        rcases List.mem_cons.1 hz with hz | hz
        · simp only [Option.some.injEq] at hz
          subst hz
          exact Nat.le_trans hvy (Nat.min_le_left z y)
        · exact hlb z hz

/-! ## Serialization round-trip -/

theorem decode_encodeNatLE :
    ∀ (w n : Nat) (rest : List Nat), n < 2 ^ (8 * w) →
      decodeNatLE w (encodeNatLE w n ++ rest) = some (n, rest)
  | 0, n, rest, h => by
      have hn : n = 0 := by simpa using h
      subst hn
      simp [encodeNatLE, decodeNatLE]
  | w + 1, n, rest, h => by
      have hdiv : n / 256 < 2 ^ (8 * w) := by
        refine Nat.div_lt_of_lt_mul ?_
        have : 2 ^ (8 * (w + 1)) = 2 ^ (8 * w) * 256 := by
          rw [Nat.mul_succ, Nat.pow_add]
        omega
      simp only [encodeNatLE, List.cons_append, List.append_eq, decodeNatLE,
        decode_encodeNatLE w (n / 256) rest hdiv, Option.map_some', Nat.mod_add_div]

theorem readBytes_append :
    ∀ (l rest : List Nat), readBytes l.length (l ++ rest) = some (l, rest)
  | [], rest => rfl
  | b :: l, rest => by
      simp only [List.length_cons, List.cons_append, List.append_eq, readBytes,
        readBytes_append l rest, Option.map_some']

theorem decodeU16s_append :
    ∀ (l rest : List Nat), (∀ x ∈ l, x < 2 ^ 16) →
      decodeU16s l.length (l.flatMap (encodeNatLE 2) ++ rest) = some (l, rest)
  | [], rest, _ => rfl
  | x :: l, rest, h => by
      have hx : x < 2 ^ (8 * 2) := by
        have := h x (List.mem_cons_self _ _)
        simpa using this
      simp only [List.length_cons, List.flatMap_cons, List.append_assoc, decodeU16s,
        decode_encodeNatLE 2 x _ hx,
        decodeU16s_append l rest (fun y hy => h y (List.mem_cons.2 (Or.inr hy))),
        Option.map_some']

theorem decodeRecord_encodeRecord (r : Record) (rest : List Nat) (h : r.Valid) :
    decodeRecord (encodeRecord r ++ rest) = some (r, rest) := by
  match r with
  | .A d =>
      obtain ⟨ht, hlen, -⟩ := h
      have ht' : d.timestamp < 2 ^ (8 * 16) := by simpa using ht
      have hlen' : d.foo.length < 2 ^ (8 * 8) := by simpa using hlen
      simp only [encodeRecord, decodeRecord, List.append_assoc,
        decode_encodeNatLE 4 0 _ (by norm_num), decode_encodeNatLE 16 d.timestamp _ ht',
        decode_encodeNatLE 8 d.foo.length _ hlen', readBytes_append]
      simp
  | .B d =>
      have ht' : d.timestamp < 2 ^ (8 * 16) := by simpa using h
      match hbar : d.bar with
      | false =>
          simp only [encodeRecord, hbar, if_false, List.append_assoc, List.cons_append,
            List.nil_append, decodeRecord, decode_encodeNatLE 4 1 _ (by norm_num),
            decode_encodeNatLE 16 d.timestamp _ ht']
          simp [← hbar]
      | true =>
          simp only [encodeRecord, hbar, if_true, List.append_assoc, List.cons_append,
            List.nil_append, decodeRecord, decode_encodeNatLE 4 1 _ (by norm_num),
            decode_encodeNatLE 16 d.timestamp _ ht']
          simp [← hbar]
  | .C d =>
      obtain ⟨ht, h1, h2⟩ := h
      have ht' : d.timestamp < 2 ^ (8 * 16) := by simpa using ht
      have h1' : d.baz.1 < 2 ^ (8 * 4) := by simpa using h1
      have h2' : d.baz.2 < 2 ^ (8 * 4) := by simpa using h2
      simp only [encodeRecord, decodeRecord, List.append_assoc,
        decode_encodeNatLE 4 2 _ (by norm_num), decode_encodeNatLE 16 d.timestamp _ ht',
        decode_encodeNatLE 4 d.baz.1 _ h1', decode_encodeNatLE 4 d.baz.2 _ h2']
      simp
  | .D d =>
      have ht' : d.timestamp < 2 ^ (8 * 16) := by simpa using h
      simp only [encodeRecord, decodeRecord, List.append_assoc,
        decode_encodeNatLE 4 3 _ (by norm_num), decode_encodeNatLE 16 d.timestamp _ ht']
      simp
  | .E d =>
      obtain ⟨ht, hlen, hall⟩ := h
      have ht' : d.timestamp < 2 ^ (8 * 16) := by simpa using ht
      have hlen' : d.defs.length < 2 ^ (8 * 8) := by simpa using hlen
      simp only [encodeRecord, decodeRecord, List.append_assoc,
        decode_encodeNatLE 4 4 _ (by norm_num), decode_encodeNatLE 16 d.timestamp _ ht',
        decode_encodeNatLE 8 d.defs.length _ hlen', decodeU16s_append d.defs rest hall]
      simp

theorem writeAll_file :
    ∀ (rs : List Record) (wr : Writer),
      (rs.foldl Writer.write wr).file = wr.file ++ rs.flatMap encodeRecord
  | [], wr => by simp
  | r :: rs, wr => by
      simp only [List.foldl_cons, List.flatMap_cons]
      rw [writeAll_file rs (wr.write r)]
      simp [Writer.write]

theorem readAll_flatMap :
    ∀ (rs : List Record) (tail : List Nat), (∀ r ∈ rs, r.Valid) →
      readAll rs.length ⟨rs.flatMap encodeRecord ++ tail⟩ = some rs
  | [], tail, _ => rfl
  | r :: rs, tail, h => by
      simp only [List.length_cons, List.flatMap_cons, List.append_assoc, readAll,
        Reader.read]
      rw [decodeRecord_encodeRecord r _ (h r (List.mem_cons_self _ _))]
      simp only [Option.map_some']
      rw [readAll_flatMap rs tail (fun x hx => h x (List.mem_cons.2 (Or.inr hx)))]
      rfl

/-! ## Resumable reading -/

theorem read_close_id {fs : FileStorage} (c : Nat) (h : SWF fs) :
    ∃ r, fs.read c = some r ∧ r.close = fs ∧ r.head = fs.contents[fs.pos]? := by
  obtain ⟨hs, hple, hrem⟩ := h
  by_cases h0 : fs.remaining = 0
  · refine ⟨⟨fs.id, fs.contents, fs.remaining, fs.pos, none⟩, ?_, ?_, ?_⟩
    · simp [FileStorage.read, FileStorageReader.read_next, h0]
    · simp [FileStorageReader.close]
    · simp only [FileStorageReader.head, Option.map_none']
      symm
      exact List.getElem?_eq_none (by omega)
  · have hlt : fs.pos < fs.contents.length := by omega
    have hget : fs.contents[fs.pos]? = some fs.contents[fs.pos] :=
      List.getElem?_eq_getElem hlt
    refine ⟨⟨fs.id, fs.contents, fs.remaining, fs.pos + 1,
             some ⟨fs.contents[fs.pos], 1⟩⟩, ?_, ?_, ?_⟩
    · simp [FileStorage.read, FileStorageReader.read_next, h0, hget]
    · simp [FileStorageReader.close]
    · simp [FileStorageReader.head, hget]

theorem headsTrace_pending :
    ∀ (n : Nat) (r : FileStorageReader), RWF r → r.remaining = n →
      headsTrace n r = some ((readerPending r).map some ++ [none])
  | 0, r, hwf, hn => by
      match hl : r.last with
      | some lr =>
          obtain ⟨-, hrest⟩ := hwf
          rw [hl] at hrest
          obtain ⟨-, hge, hle, -, hrem⟩ := hrest
          omega
      | none =>
          simp [headsTrace, FileStorageReader.head, readerPending, hl]
  | n + 1, r, hwf, hn => by
      match hl : r.last with
      | none =>
          obtain ⟨-, hrest⟩ := hwf
          rw [hl] at hrest
          omega
      | some lr =>
          obtain ⟨r', hread, hrwf', hpend, hrem, -, -⟩ := read_next_spec hwf hl
          simp only [headsTrace, hread]
          rw [headsTrace_pending n r' hrwf' (by omega)]
          simp [FileStorageReader.head, hl, hpend]

/-! ## The claims -/

/-- **C1.** For every buffer state reachable by any sequence of `push_record`
and `dump_safe` calls and every watermark `w`, the sequence of records a
single `dump_safe w` call appends to the output has nondecreasing timestamps,
and every written timestamp is `≤ w`. -/
theorem claim_C1 (b : Buffer) (w n : Nat) (b' : Buffer)
    (hb : Reachable b) (hd : b.dump_safe w = some (n, b')) :
    ∃ chunk, b'.output = b.output ++ chunk ∧ List.Sorted recLE chunk ∧
      ∀ x ∈ chunk, x.timestamp ≤ w := by
  obtain ⟨chunk, b'', heq, -, hout, hsort, hchunk, -, -, -⟩ :=
    dump_safe_spec (reachable_BWF hb) w
  rw [heq] at hd
  simp only [Option.some.injEq, Prod.mk.injEq] at hd
  obtain ⟨-, rfl⟩ := hd
  refine ⟨chunk, hout, hsort, ?_⟩
  intro x hx
  have hmem := List.mem_filter.1 (hchunk.mem_iff.1 hx)
  simpa using hmem.2

theorem claim_C1_witness :
    ∃ chunk, bEx'.output = bEx.output ++ chunk ∧ List.Sorted recLE chunk ∧
      ∀ x ∈ chunk, x.timestamp ≤ 10 :=
  claim_C1 bEx 10 1 bEx'
    (Reachable.push rEx5 (Reachable.new cfgEx (by decide))) (by decide)

/-- **C2.** Records are conserved: along any run from a fresh buffer, the
output plus the resident records are exactly the pushed records (so
`total_pushed − total_emitted = |resident|`, each record is emitted at most
once); `push_record` adds exactly one resident, and `dump_safe` removes
exactly as many residents as the count it returns, appending that many
records to the output. -/
theorem claim_C2 (cfg : Config) (ops : List Op) (b : Buffer)
    (hcap : 0 < cfg.max_in_memory) (hrun : runOps (Buffer.new cfg) ops = some b) :
    (b.output ++ b.residents).Perm (pushedRecords ops) ∧
    b.output.length + b.residents.length = (pushedRecords ops).length ∧
    (∀ r : Record, ((b.push_record r).residents).Perm (r :: b.residents) ∧
      (b.push_record r).output = b.output) ∧
    (∀ (w n : Nat) (b' : Buffer), b.dump_safe w = some (n, b') →
      b.residents.length = n + b'.residents.length ∧
      b'.output.length = b.output.length + n) := by
  have hre : Reachable b := runOps_reachable (Reachable.new cfg hcap) hrun
  have hcons := runOps_conserve (Reachable.new cfg hcap) hrun
  have hnew : (Buffer.new cfg).output ++ (Buffer.new cfg).residents = [] := by
    simp [Buffer.new, Buffer.residents, InMemBuffer.with_capacity, filesPending]
  rw [hnew, List.nil_append] at hcons
  refine ⟨hcons, by simpa using hcons.length_eq, ?_, ?_⟩
  · intro r
    obtain ⟨-, hres, hout, -, -⟩ := push_record_spec (reachable_BWF hre) r
    exact ⟨hres, hout⟩
  · intro w n b' hd
    obtain ⟨chunk, b'', heq, -, hout, -, hchunk, hres, -, -⟩ :=
      dump_safe_spec (reachable_BWF hre) w
    rw [heq] at hd
    simp only [Option.some.injEq, Prod.mk.injEq] at hd
    obtain ⟨hn, rfl⟩ := hd
    constructor
    · have h1 := hchunk.length_eq
      have h2 := hres.length_eq
      have h3 := (filter_partition_perm b.residents w).length_eq
      simp only [List.length_append] at h3
      omega
    · rw [hout]
      simp [← hn]

theorem claim_C2_witness :
    (bEx'.output ++ bEx'.residents).Perm (pushedRecords [Op.push rEx5, Op.dump 10]) ∧
    bEx'.output.length + bEx'.residents.length =
      (pushedRecords [Op.push rEx5, Op.dump 10]).length ∧
    (∀ r : Record, ((bEx'.push_record r).residents).Perm (r :: bEx'.residents) ∧
      (bEx'.push_record r).output = bEx'.output) ∧
    (∀ (w n : Nat) (b' : Buffer), bEx'.dump_safe w = some (n, b') →
      bEx'.residents.length = n + b'.residents.length ∧
      b'.output.length = bEx'.output.length + n) :=
  claim_C2 cfgEx [Op.push rEx5, Op.dump 10] bEx' (by decide) (by decide)

/-- **C3.** With positive `max_in_memory`, between `push_record` calls the
in-memory run holds at most `max_in_memory` records; and a push that fills
the in-memory run to capacity spills it: the run is drained, sorted, into a
file freshly named by the spill counter, the resulting on-disk run is
appended to the run list, and the in-memory run is left empty. -/
theorem claim_C3 (b : Buffer) (r : Record) (hb : Reachable b) :
    b.in_memory.heap.length ≤ b.in_memory.capacity ∧
    (b.push_record r).in_memory.heap.length ≤ b.in_memory.capacity ∧
    (b.in_memory.heap.length + 1 = b.in_memory.capacity →
      (b.push_record r).in_memory.heap = [] ∧
      ∃ fs, (b.push_record r).files = b.files ++ [fs] ∧
        fs.contents.Perm (r :: b.in_memory.heap) ∧ List.Sorted recLE fs.contents ∧
        fs.pos = 0 ∧ fs.id = b.files_counter ∧ (∀ g ∈ b.files, g.id ≠ fs.id) ∧
        (b.push_record r).files_counter = b.files_counter + 1) := by
  have hbwf := reachable_BWF hb
  obtain ⟨-, hres, -, hcap, -⟩ := push_record_spec hbwf r
  refine ⟨Nat.le_of_lt hbwf.mem_lt, ?_, ?_⟩
  · have := (push_record_spec hbwf r).1.mem_lt
    rw [hcap] at this
    exact Nat.le_of_lt this
  · intro hfull
    have hfull2 : (b.in_memory.push r).heap.length = b.in_memory.capacity := by
      simp only [InMemBuffer.push, List.length_cons]
      omega
    have hstep : b.push_record r = ({ b with
        earliest_buffered_timestamp :=
          some (minTs b.earliest_buffered_timestamp r.timestamp),
        in_memory := b.in_memory.push r } : Buffer).dump_in_memory := by
      simp only [Buffer.push_record, InMemBuffer.is_full]
      rw [if_pos (by simpa using hfull2)]
      rfl
    have hne : ({ b with
        earliest_buffered_timestamp :=
          some (minTs b.earliest_buffered_timestamp r.timestamp),
        in_memory := b.in_memory.push r } : Buffer).in_memory.heap ≠ [] := by
      simp [InMemBuffer.push]
    obtain ⟨fs, hswf, hperm, hpos, hrem, hid, -, heq⟩ := dump_in_memory_spill hne
    rw [hstep, heq]
    refine ⟨rfl, fs, rfl, ?_, hswf.1, hpos, hid, ?_, rfl⟩
    · simpa [InMemBuffer.push] using hperm
    · intro g hg
      have hglt := hbwf.toPreWF.ids_lt g hg
      have hid2 : fs.id = b.files_counter := hid
      omega

theorem claim_C3_witness :
    bEx.in_memory.heap.length ≤ bEx.in_memory.capacity ∧
    (bEx.push_record rEx7).in_memory.heap.length ≤ bEx.in_memory.capacity ∧
    (bEx.in_memory.heap.length + 1 = bEx.in_memory.capacity →
      (bEx.push_record rEx7).in_memory.heap = [] ∧
      ∃ fs, (bEx.push_record rEx7).files = bEx.files ++ [fs] ∧
        fs.contents.Perm (rEx7 :: bEx.in_memory.heap) ∧
        List.Sorted recLE fs.contents ∧
        fs.pos = 0 ∧ fs.id = bEx.files_counter ∧ (∀ g ∈ bEx.files, g.id ≠ fs.id) ∧
        (bEx.push_record rEx7).files_counter = bEx.files_counter + 1) :=
  claim_C3 bEx rEx7 (Reachable.push rEx5 (Reachable.new cfgEx (by decide)))

/-- **C4.** For an on-disk run with sorted timestamps `t₁ ≤ … ≤ tₖ` (`k ≥ 1`),
any number of open → head → close cycles without `advance` reproduce the run
exactly (close parks the cursor at the byte offset of the cached head), so the
head is always `t₁`; and the heads observed across `k` successive `advance`
calls are `t₁, …, tₖ` followed by none. -/
theorem claim_C4 (l : List Record) (id c : Nat)
    (hs : List.Sorted recLE l) (hne : l ≠ []) :
    ∃ r, (FileStorage.mk id l 0 l.length).read c = some r ∧
      r.close = FileStorage.mk id l 0 l.length ∧
      (∀ k, cycles c k (FileStorage.mk id l 0 l.length) =
        some (FileStorage.mk id l 0 l.length)) ∧
      r.head = l.head? ∧
      headsTrace l.length r = some (l.map some ++ [none]) := by
  have hswf : SWF (FileStorage.mk id l 0 l.length) := ⟨hs, by simp, by simp⟩
  obtain ⟨r, hr, hclose, hhead⟩ := read_close_id c hswf
  obtain ⟨r₂, hr₂, hrwf, hpend, hrem, -, -⟩ := read_spec c hswf
  rw [hr] at hr₂
  obtain rfl : r = r₂ := Option.some.inj hr₂
  have hk : ∀ k, cycles c k (FileStorage.mk id l 0 l.length) =
      some (FileStorage.mk id l 0 l.length) := by
    intro k
    induction k with
    | zero => rfl
    | succ k ih =>
        simp only [cycles, cycleOnce, hr, Option.map_some', hclose]
        exact ih
  refine ⟨r, hr, hclose, hk, ?_, ?_⟩
  · rw [hhead]
    match l, hne with
    | x :: t, _ => simp
  · have := headsTrace_pending l.length r hrwf (by simpa using hrem)
    rw [this, hpend]
    simp [storagePending]

theorem claim_C4_witness :
    ∃ r, (FileStorage.mk 0 [rEx5, rEx7] 0 [rEx5, rEx7].length).read 8192 = some r ∧
      r.close = FileStorage.mk 0 [rEx5, rEx7] 0 [rEx5, rEx7].length ∧
      (∀ k, cycles 8192 k (FileStorage.mk 0 [rEx5, rEx7] 0 [rEx5, rEx7].length) =
        some (FileStorage.mk 0 [rEx5, rEx7] 0 [rEx5, rEx7].length)) ∧
      r.head = [rEx5, rEx7].head? ∧
      headsTrace [rEx5, rEx7].length r = some ([rEx5, rEx7].map some ++ [none]) :=
  claim_C4 [rEx5, rEx7] 0 8192 (by decide) (by decide)

/-- **C5.** `drain_into_file` on a nonempty in-memory run serializes its
records into a fresh file in nondecreasing timestamp order, empties the run,
positions the file at its start, and returns the run handle; on an empty run
it returns nothing and changes nothing. -/
theorem claim_C5 (m : InMemBuffer) (id : Nat) (h : m.heap ≠ []) :
    (∃ fs, m.drain_into_file id = (some fs, { m with heap := [] }) ∧
      List.Sorted recLE fs.contents ∧ fs.contents.Perm m.heap ∧
      fs.pos = 0 ∧ fs.remaining = m.heap.length) ∧
    (∀ (m₀ : InMemBuffer) (id₀ : Nat), m₀.heap = [] →
      m₀.drain_into_file id₀ = (none, m₀)) := by
  constructor
  · obtain ⟨fs, hnew, hswf, hperm, hpos, hrem, -, -⟩ := FileStorage_new_spec id h
    exact ⟨fs, by simp [InMemBuffer.drain_into_file, hnew], hswf.1, hperm, hpos, hrem⟩
  · intro m₀ id₀ h₀
    match m₀, h₀ with
    | ⟨[], cap⟩, _ => simp [InMemBuffer.drain_into_file, FileStorage.new]

theorem claim_C5_witness :
    (∃ fs, (InMemBuffer.mk [rEx7, rEx5] 4).drain_into_file 0 =
        (some fs, { InMemBuffer.mk [rEx7, rEx5] 4 with heap := [] }) ∧
      List.Sorted recLE fs.contents ∧ fs.contents.Perm [rEx7, rEx5] ∧
      fs.pos = 0 ∧ fs.remaining = [rEx7, rEx5].length) ∧
    (∀ (m₀ : InMemBuffer) (id₀ : Nat), m₀.heap = [] →
      m₀.drain_into_file id₀ = (none, m₀)) :=
  claim_C5 (InMemBuffer.mk [rEx7, rEx5] 4) 0 (by decide)

/-- **C6.** If every resident record's timestamp exceeds the watermark (in
particular if the buffer is empty — equivalently the cached minimum is unset
or above the watermark), `dump_safe` returns 0 and leaves the whole buffer
state unchanged. -/
theorem claim_C6 (b : Buffer) (w : Nat) (hb : Reachable b)
    (h : ∀ x ∈ b.residents, w < x.timestamp) :
    b.dump_safe w = some (0, b) := by
  have hbwf := reachable_BWF hb
  match hE : b.earliest_buffered_timestamp with
  | none => simp [Buffer.dump_safe, hE]
  | some m =>
      have hc := hbwf.toPreWF.earliest
      rw [hE] at hc
      obtain ⟨⟨x, hx, hxm⟩, -⟩ := hc
      have hlt : w < m := hxm ▸ h x hx
      simp [Buffer.dump_safe, hE, Nat.not_le.2 hlt]

theorem claim_C6_witness : b7Ex.dump_safe 3 = some (0, b7Ex) :=
  claim_C6 b7Ex 3 (Reachable.push rEx7 (Reachable.new cfgEx (by decide)))
    (by decide)

/-- **C7.** For a nonempty per-source last-timestamp vector, the computed
watermark is undefined iff at least one entry is none, and otherwise it is
the minimum of the entries. -/
theorem claim_C7 (l : List (Option Nat)) (h : l ≠ []) :
    (find_earliest_timestamp l = none ↔ none ∈ l) ∧
    (∀ m : Nat, find_earliest_timestamp l = some m ↔
      (none ∉ l ∧ some m ∈ l ∧ ∀ x : Nat, some x ∈ l → m ≤ x)) := by
  have hinv : ∀ z : Nat, find_earliest_timestamp l = some z →
      findEarliestGo none l = some (some z) := by
    intro z hz
    unfold find_earliest_timestamp at hz
    match hg : findEarliestGo none l with
    | none => rw [hg] at hz; simp at hz
    | some none => rw [hg] at hz; simp at hz
    | some (some v) =>
        rw [hg] at hz
        simp only [Option.some.injEq] at hz
        rw [hz]
  have hsplit : none ∉ l → ∃ x rest, l = some x :: rest := by
    match l, h with
    | none :: rest, _ => intro hn; exact absurd (List.mem_cons_self _ _) hn
    | some x :: rest, _ => intro _; exact ⟨x, rest, rfl⟩
  constructor
  · constructor
    · intro hf
      by_contra hn
      obtain ⟨x, rest, rfl⟩ := hsplit hn
      obtain ⟨v, hgo, -, -, -⟩ :=
        findEarliestGo_some rest x (fun hc => hn (List.mem_cons.2 (Or.inr hc)))
      unfold find_earliest_timestamp at hf
      have hgo' : findEarliestGo none (some x :: rest) = some (some v) := hgo
      rw [hgo'] at hf
      simp at hf
    · intro hn
      unfold find_earliest_timestamp
      rw [(findEarliestGo_none l none).2 hn]
  · intro m
    constructor
    · intro hf
      have hgo := hinv m hf
      have hn : none ∉ l := by
        intro hc
        rw [(findEarliestGo_none l none).2 hc] at hgo
        simp at hgo
      obtain ⟨x, rest, rfl⟩ := hsplit hn
      obtain ⟨v, hgov, hvx, hvmem, hvlb⟩ :=
        findEarliestGo_some rest x (fun hc => hn (List.mem_cons.2 (Or.inr hc)))
      have hgo' : findEarliestGo (some x) rest = some (some m) := hgo
      rw [hgov] at hgo'
      simp only [Option.some.injEq] at hgo'
      subst hgo'
      refine ⟨hn, ?_, ?_⟩
      · rcases hvmem with rfl | hvmem
        · exact List.mem_cons_self _ _
        · exact List.mem_cons.2 (Or.inr hvmem)
      · intro z hz
        rcases List.mem_cons.1 hz with hz | hz
        · simp only [Option.some.injEq] at hz
          omega
        · exact hvlb z hz
    · rintro ⟨hn, hmem, hlb⟩
      obtain ⟨x, rest, rfl⟩ := hsplit hn
      obtain ⟨v, hgov, hvx, hvmem, hvlb⟩ :=
        findEarliestGo_some rest x (fun hc => hn (List.mem_cons.2 (Or.inr hc)))
      have hvm : v = m := by
        have h1 : m ≤ v := by
          rcases hvmem with rfl | hvmem
          · exact hlb v (List.mem_cons_self _ _)
          · exact hlb v (List.mem_cons.2 (Or.inr hvmem))
        have h2 : v ≤ m := by
          rcases List.mem_cons.1 hmem with hm | hm
          · simp only [Option.some.injEq] at hm
            omega
          · exact hvlb m hm
        omega
      unfold find_earliest_timestamp
      have hgo' : findEarliestGo none (some x :: rest) =
          findEarliestGo (some x) rest := rfl
      rw [hgo', hgov, hvm]

theorem claim_C7_witness :
    (find_earliest_timestamp [some 100, some 5, some 45] = none ↔
      none ∈ [some 100, some 5, some 45]) ∧
    (∀ m : Nat, find_earliest_timestamp [some 100, some 5, some 45] = some m ↔
      (none ∉ [some 100, some 5, some 45] ∧
        some m ∈ [some 100, some 5, some 45] ∧
        ∀ x : Nat, some x ∈ [some 100, some 5, some 45] → m ≤ x)) :=
  claim_C7 [some 100, some 5, some 45] (by decide)

/-- **C8.** Writer-then-reader is the identity on records: a written record
reads back equal (same variant, payload and timestamp), and any sequence of
writes is recovered by the reader exactly, in write order. -/
theorem claim_C8 (rs : List Record) (hv : ∀ r ∈ rs, r.Valid) :
    readAll rs.length (Reader.openR (writeAll rs).file) = some rs ∧
    (∀ (r : Record) (rest : List Nat), r.Valid →
      decodeRecord (encodeRecord r ++ rest) = some (r, rest)) := by
  refine ⟨?_, fun r rest h => decodeRecord_encodeRecord r rest h⟩
  have hfile : (writeAll rs).file = rs.flatMap encodeRecord := by
    rw [writeAll, writeAll_file]
    rfl
  rw [hfile, Reader.openR]
  have := readAll_flatMap rs [] hv
  simpa using this

theorem claim_C8_witness :
    readAll [Record.A ⟨1, [200, 5]⟩, rEx5].length
      (Reader.openR (writeAll [Record.A ⟨1, [200, 5]⟩, rEx5]).file) =
      some [Record.A ⟨1, [200, 5]⟩, rEx5] ∧
    (∀ (r : Record) (rest : List Nat), r.Valid →
      decodeRecord (encodeRecord r ++ rest) = some (r, rest)) :=
  claim_C8 [Record.A ⟨1, [200, 5]⟩, rEx5] (by
    intro r hr
    simp only [List.mem_cons, List.not_mem_nil, or_false] at hr
    rcases hr with rfl | rfl
    · exact ⟨by decide, by decide, by decide⟩
    · exact (by decide : (5 : Nat) < 2 ^ 128))

/-- **C9.** For every reachable buffer state, `dump_safe w` succeeds and
returns 0 exactly when no resident record has timestamp `≤ w` (no records, or
minimum above `w`); when some resident is `≤ w` it returns at least 1 — so the
sink's nonzero notification is sent exactly when a dump made progress. -/
theorem claim_C9 (b : Buffer) (w : Nat) (hb : Reachable b) :
    ∃ n b', b.dump_safe w = some (n, b') ∧
      ((n = 0) ↔ (∀ x ∈ b.residents, w < x.timestamp)) ∧
      ((∃ x ∈ b.residents, x.timestamp ≤ w) → 1 ≤ n) := by
  obtain ⟨chunk, b', heq, -, -, -, hchunk, -, -, -⟩ :=
    dump_safe_spec (reachable_BWF hb) w
  have hlen : chunk.length =
      (b.residents.filter (fun y => y.timestamp ≤ w)).length := hchunk.length_eq
  refine ⟨chunk.length, b', heq, ?_, ?_⟩
  · constructor
    · intro h0 x hx
      have hfl : b.residents.filter (fun y => y.timestamp ≤ w) = [] :=
        List.eq_nil_of_length_eq_zero (by omega)
      by_contra hc
      have hxw : x.timestamp ≤ w := Nat.le_of_not_lt hc
      have : x ∈ b.residents.filter (fun y => y.timestamp ≤ w) :=
        List.mem_filter.2 ⟨hx, by simpa using hxw⟩
      rw [hfl] at this
      simp at this
    · intro hall
      have hfl : b.residents.filter (fun y => y.timestamp ≤ w) = [] := by
        refine List.filter_eq_nil_iff.2 ?_
        intro y hy
        have := hall y hy
        simp only [decide_eq_true_eq]
        exact Nat.not_le.2 this
      rw [hfl] at hlen
      simpa using hlen
  · rintro ⟨x, hx, hxw⟩
    have hmem : x ∈ b.residents.filter (fun y => y.timestamp ≤ w) :=
      List.mem_filter.2 ⟨hx, by simpa using hxw⟩
    have := List.length_pos_of_mem hmem
    omega

theorem claim_C9_witness :
    ∃ n b', bEx.dump_safe 10 = some (n, b') ∧
      ((n = 0) ↔ (∀ x ∈ bEx.residents, 10 < x.timestamp)) ∧
      ((∃ x ∈ bEx.residents, x.timestamp ≤ 10) → 1 ≤ n) :=
  claim_C9 bEx 10 (Reachable.push rEx5 (Reachable.new cfgEx (by decide)))

/-- **C10.** The total order on `Record` compares only timestamps:
`cmp a b = compare a.timestamp b.timestamp`; hence records with equal
timestamps compare as `Ordering.eq` even when they are structurally
different, so order-equality does not imply equality. -/
theorem claim_C10 :
    (∀ a b : Record, Record.cmp a b = compare a.timestamp b.timestamp) ∧
    (∀ a b : Record, a.timestamp = b.timestamp → Record.cmp a b = Ordering.eq) ∧
    (∃ a b : Record, Record.cmp a b = Ordering.eq ∧ a ≠ b) := by
  refine ⟨fun a b => rfl, ?_, ?_⟩
  · intro a b h
    rw [Record.cmp, h]
    exact Nat.compare_eq_eq.2 rfl
  · exact ⟨Record.A ⟨1, []⟩, Record.B ⟨1, true⟩, by decide, by decide⟩

theorem claim_C10_witness :
    Record.cmp rEx5 rEx7 = compare rEx5.timestamp rEx7.timestamp :=
  claim_C10.1 rEx5 rEx7

end Tsk
